import Mathlib

/-!
Verification of the object heap and mark-and-sweep garbage collector of a small
embeddable language runtime (`src/gc.c`).

The embedding follows the source closely.  Pointers become indices:

* object slots live in one store `objs : List Slot`, and an object pointer
  (`struct RBasic *`) is the index of its slot (`ObjId = Nat`);
* heap pages live in `pages : List Page`, and a page pointer is its index; a
  page's `objects[]` array is the contiguous id range
  `[start, start + MRB_HEAP_PAGE_SIZE)`;
* the two intrusive doubly linked page lists (`heaps` / `free_heaps`, via
  `prev/next` and `free_prev/free_next`) become `List Nat` of page ids, head
  first; linking at the head is `::` and O(1) unlink is `List.erase`;
* a page's intrusive free list (via the overlaid `free_obj.next`) becomes the
  `freelist : List Nat` of slot ids, head first.

The repository ships only `src/gc.c`; the headers (`mruby.h`, `mruby/gc.h`,
`mruby/array.h`, ...) and the collaborator modules (variable, class, hash,
string tables) are external.  Whatever the collector consumes from them is
modelled from the spec and marked as such below:

* `is_white/is_dead/paint_white/paint_black` (`mruby/gc.h`): modelled from the
  spec, a two-colour `white`/`black` bit per slot; "white (unreached)" slots
  are collected, everything else is repainted white by sweep;
* the payload of each object variant: the collector only ever traverses a
  per-variant list of outgoing GC references (class pointer plus children),
  so a slot carries `c : Option ObjId` and `refs : List (Option ObjId)`;
* the root providers (`mrb_gc_mark_gv`, `mark_context`, the irep constant
  pools): modelled from the spec as lists of root object ids held in the
  state (`gv_roots`, `context_roots`, `irep_roots`);
* `MRB_ARENA_SIZE` and `SIZE_MAX`: compile-time parameters in `Cfg`, together
  with `MRB_HEAP_PAGE_SIZE` (whose default is 1024 but which scenarios
  override, so it is a parameter rather than a constant).

The host allocator callback `allocf` is abstracted by boolean success oracles
passed to `mrb_realloc`/`mrb_calloc`; the page-level heap model (`add_heap`,
`mrb_obj_alloc`) takes the host allocation of page memory to succeed, which is
the "no true host out-of-memory" reading used by the claims about it.
-/

set_option maxHeartbeats 1000000

namespace MrbGC

/-- Object variant tags, `enum mrb_vtype` (from `mruby.h`; the closed set the
spec lists in its data model).  `FREE` marks a dead slot. -/
inductive Vtype where
  | FREE | FALSE | TRUE | FIXNUM | SYMBOL | FLOAT
  | OBJECT | CLASS | MODULE | SCLASS | ICLASS | PROC
  | ENV | FIBER | ARRAY | HASH | STRING | RANGE | DATA
  deriving DecidableEq, Repr

/-- Modelled from the spec: the collector colour bit of `mruby/gc.h` (not under
`src/`).  The specified collector is two-colour: white = not yet reached,
black = reached and scanned; sweep repaints survivors white. -/
inductive Color where
  | white | black
  deriving DecidableEq, Repr

/-- One uniform heap slot (`RVALUE`): the shared object header.  `tt` and the
class pointer `c` are the header fields the collector reads; `refs` is the
per-variant list of outgoing GC references (array elements, proc env, range
edges, ...), modelled from the spec because the concrete payload layouts live
in external headers.  A free slot keeps its stale `c`/`refs` bytes, as in C. -/
structure Slot where
  tt : Vtype
  color : Color
  c : Option Nat
  refs : List (Option Nat)
  deriving DecidableEq, Repr

/-- A fresh free slot as `add_heap` creates it: `calloc`ed to zero with
`tt = MRB_TT_FREE`.  Zeroed colour bits are white (spec-modelled). -/
def freeSlot : Slot := ⟨.FREE, .white, none, []⟩

/-- `struct heap_page`: `start` is the slot id of `objects[0]` (the page's
slots are the contiguous ids `start + i`, `i < MRB_HEAP_PAGE_SIZE`), and
`freelist` is the page-local intrusive free list, head first.  The `prev`,
`next`, `free_prev`, `free_next` links are represented by the page's position
in the `heaps` / `free_heaps` lists of the state; the `old:1` bit is never
read by the code and is omitted. -/
structure Page where
  start : Nat
  freelist : List Nat
  deriving DecidableEq, Repr

/-- Compile-time parameters (macros): `MRB_HEAP_PAGE_SIZE`, `MRB_ARENA_SIZE`
(from the external `mruby.h`, modelled from the spec as the fixed arena
capacity), and `SIZE_MAX`. -/
structure Cfg where
  heapPageSize : Nat
  arenaSize : Nat
  sizeMax : Nat
  deriving DecidableEq, Repr

/-- `mrb->gc_state` values used by the code (`GC_STATE_NONE`,
`GC_STATE_SWEEP`; the mark state constant is never stored by this
collector). -/
inductive GcState where
  | NONE | SWEEP
  deriving DecidableEq, Repr

/-- Errors surfaced by `mrb_raise` (class and message), plus a marker for a
null dereference the C code would perform (used only on paths that are
unreachable under the well-formedness invariants). -/
inductive Err where
  | runtimeError (msg : String)
  | nullDeref
  deriving DecidableEq, Repr

/-- The slice of `mrb_state` the collector owns, plus the modelled root
providers.  List heads correspond to the C list heads. -/
structure State where
  objs : List Slot
  pages : List Page
  heaps : List Nat
  free_heaps : List Nat
  sweeps : List Nat
  live : Nat
  gc_live_after_mark : Nat
  gc_state : GcState
  gc_disabled : Bool
  out_of_memory : Bool
  arena : List (Option Nat)
  arena_idx : Int
  gv_roots : List (Option Nat)
  object_class : Option Nat
  top_self : Option Nat
  exc : Option Nat
  context_roots : List (Option Nat)
  irep_roots : List (Option Nat)
  deriving DecidableEq, Repr

/-- Fetch a page record by id (a valid id under the invariants). -/
def pageGet (st : State) (pid : Nat) : Page := st.pages.getD pid ⟨0, []⟩

/-- Overwrite a page record. -/
def setPage (st : State) (pid : Nat) (p : Page) : State :=
  {st with pages := st.pages.set pid p}

/-- Overwrite a slot in the store. -/
def setObj (st : State) (id : Nat) (sl : Slot) : State :=
  {st with objs := st.objs.set id sl}

/-- The slot ids of a page's `objects[]` array, in address order. -/
def pageIds (cfg : Cfg) (p : Page) : List Nat :=
  (List.range cfg.heapPageSize).map (p.start + ·)

/-- `is_white(p)` on the store (false for an id outside the store, where the C
code would be reading freed memory). -/
def isWhiteAt (objs : List Slot) (id : Nat) : Bool :=
  match objs.get? id with
  | some sl => sl.color = .white
  | none => false

/-- Is the slot painted black? -/
def isBlackAt (objs : List Slot) (id : Nat) : Bool :=
  match objs.get? id with
  | some sl => sl.color = .black
  | none => false

/-- `paint_black(p)`. -/
def paintBlackAt (objs : List Slot) (id : Nat) : List Slot :=
  match objs.get? id with
  | some sl => objs.set id {sl with color := .black}
  | none => objs

/-- The outgoing references the marker follows from a slot: first the class
pointer `obj->c`, then the variant-specific children (the `switch` arms of
`mrb_gc_mark`, collapsed into the slot's `refs` list). -/
def slotRefs (objs : List Slot) (id : Nat) : List (Option Nat) :=
  match objs.get? id with
  | some sl => sl.c :: sl.refs
  | none => []

/-! ### Page list management (`link_heap_page` .. `unlink_free_heap_page`) -/

/-- `link_heap_page`: push the page at the head of the all-pages list. -/
def link_heap_page (st : State) (pid : Nat) : State :=
  {st with heaps := pid :: st.heaps}

/-- `unlink_heap_page`: O(1) unlink from the doubly linked all-pages list. -/
def unlink_heap_page (st : State) (pid : Nat) : State :=
  {st with heaps := st.heaps.erase pid}

/-- `link_free_heap_page`: push at the head of the pages-with-free-slots
list. -/
def link_free_heap_page (st : State) (pid : Nat) : State :=
  {st with free_heaps := pid :: st.free_heaps}

/-- `unlink_free_heap_page` (a no-op when the page is not on the list, as in
the C code where its link fields are then null). -/
def unlink_free_heap_page (st : State) (pid : Nat) : State :=
  {st with free_heaps := st.free_heaps.erase pid}

/-- `add_heap`: `calloc` one page, thread all `MRB_HEAP_PAGE_SIZE` slots into
the page free list with `tt = MRB_TT_FREE` (the loop leaves `freelist`
pointing at `objects[P-1]`, each slot's `next` pointing at its predecessor),
then link the page into both lists at the head.  Host page allocation is
taken to succeed. -/
def add_heap (cfg : Cfg) (st : State) : State :=
  let start := st.objs.length
  let pid := st.pages.length
  let page : Page := ⟨start, ((List.range cfg.heapPageSize).map (start + ·)).reverse⟩
  let st := {st with objs := st.objs ++ List.replicate cfg.heapPageSize freeSlot,
                     pages := st.pages ++ [page]}
  link_free_heap_page (link_heap_page st pid) pid

/-- `mrb_init_heap`: clear both page lists, then add one page. -/
def mrb_init_heap (cfg : Cfg) (st : State) : State :=
  add_heap cfg {st with heaps := [], free_heaps := []}

/-! ### Arena (`gc_protect`, `mrb_gc_arena_save`, `mrb_gc_arena_restore`) -/

/-- `gc_protect`: on overflow (`arena_idx >= MRB_ARENA_SIZE`) rewind
`arena_idx` to `MRB_ARENA_SIZE - 4` and raise; `mrb_raise` does not return, so
the object is not pushed.  Otherwise push `p` and bump the index. -/
def gc_protect (cfg : Cfg) (st : State) (p : Nat) : Except (Err × State) State :=
  if (cfg.arenaSize : Int) ≤ st.arena_idx then
    .error (.runtimeError "arena overflow error",
            {st with arena_idx := (cfg.arenaSize : Int) - 4})
  else
    .ok {st with arena := st.arena.set st.arena_idx.toNat (some p),
                 arena_idx := st.arena_idx + 1}

/-- `mrb_gc_arena_save`: return the current arena depth. -/
def mrb_gc_arena_save (st : State) : Int := st.arena_idx

/-- `mrb_gc_arena_restore`: store `idx` into `arena_idx`, with no bounds or
monotonicity check of any kind. -/
def mrb_gc_arena_restore (st : State) (idx : Int) : State :=
  {st with arena_idx := idx}

/-! ### Mark (`mrb_gc_mark`, `mark`) -/

/-- Count of white slots in the store (the marker paints one white slot black
per descent, which bounds its recursion). -/
def whiteCount (objs : List Slot) : Nat :=
  objs.countP (fun sl => sl.color = .white)

/-- Fuel that dominates the total work of the marker: every white slot can be
entered once, contributing one step for itself and one per outgoing
reference. -/
def whiteWeight (objs : List Slot) : Nat :=
  (objs.map (fun sl => if sl.color = .white then sl.refs.length + 2 else 0)).sum

/-- `mrb_gc_mark` lifted to a pending list of marker calls: each list entry is
one `mrb_gc_mark(mrb, obj)` call, performed in order.  A null or non-white
object returns immediately; a white object is painted black and then the
marker recurses into `obj->c` followed by the variant's children
(`slotRefs`), exactly the call sequence of the C function's `switch`.  The
`fuel` argument makes the recursion structural; the C recursion terminates
because each descent paints a white slot black, and the lemmas below show the
fuel used by `mark` is adequate. -/
def markList (fuel : Nat) (objs : List Slot) (l : List (Option Nat)) : List Slot :=
  match fuel with
  | 0 => objs
  | f + 1 =>
    match l with
    | [] => objs
    | none :: xs => markList f objs xs
    | some id :: xs =>
      if isWhiteAt objs id then
        markList f (markList f (paintBlackAt objs id) (slotRefs objs id)) xs
      else markList f objs xs

/-- A single `mrb_gc_mark(mrb, obj)` call with explicit fuel. -/
def mrb_gc_mark (fuel : Nat) (objs : List Slot) (o : Option Nat) : List Slot :=
  markList fuel objs [o]

/-- The root list `mark(mrb)` walks, in source order: global variables, the
arena entries `arena[0 .. arena_idx)`, the primordial class, `top_self`, the
pending exception, the root context, and the irep constant pools.  The
collaborator-provided groups are the modelled root lists of the state.  The C
loop bound `e = mrb->arena_idx` is a `size_t` read of an `int`; `take
(arena_idx.toNat)` covers every in-bounds index (past the array, the C code
would read out of bounds). -/
def rootList (st : State) : List (Option Nat) :=
  st.gv_roots ++ st.arena.take st.arena_idx.toNat
    ++ [st.object_class, st.top_self, st.exc]
    ++ st.context_roots ++ st.irep_roots

/-- Fuel sufficient for marking the whole root list (shown adequate by the
soundness/completeness lemmas below). -/
def markFuel (st : State) : Nat :=
  whiteWeight st.objs + (rootList st).length + 1

/-- `mark(mrb)`: mark every root. -/
def mark (st : State) : State :=
  {st with objs := markList (markFuel st) st.objs (rootList st)}

/-! ### Finalizer dispatch (`obj_free`) and sweep -/

/-- `obj_free`: the variant-specific resource release is delegated to external
collaborators; on the heap side the function sets `tt = MRB_TT_FREE` at the
end.  The immediate tags `TRUE`/`FIXNUM`/`SYMBOL` ("cannot happen") and
`FLOAT` (without `MRB_WORD_BOXING`, the default) return early, before the tag
is cleared. -/
def obj_free (sl : Slot) : Slot :=
  match sl.tt with
  | .TRUE | .FIXNUM | .SYMBOL => sl
  | .FLOAT => sl
  | _ => {sl with tt := .FREE}

/-- Accumulator of the per-page slot loop of `sweep`: the store, the page free
list being rebuilt, `freed`, and `dead_slot`. -/
structure SweepAcc where
  objs : List Slot
  freelist : List Nat
  freed : Nat
  dead_slot : Bool
  deriving DecidableEq, Repr

/-- One iteration of the slot loop: a white slot that is live is finalized,
pushed onto the page free list and counted in `freed` (a white `FREE` slot is
skipped); any other slot is repainted white and clears `dead_slot`.  The
`is_white(p) || is_dead(mrb, p)` guard of the source is the spec's "if white
(unreached)" (`is_dead` lives in the external `mruby/gc.h`; modelled from the
spec). -/
def sweepSlot (acc : SweepAcc) (id : Nat) : SweepAcc :=
  match acc.objs.get? id with
  | none => acc
  | some sl =>
    if sl.color = .white then
      if sl.tt ≠ .FREE then
        { objs := acc.objs.set id (obj_free sl),
          freelist := id :: acc.freelist,
          freed := acc.freed + 1,
          dead_slot := acc.dead_slot }
      else acc
    else
      { acc with objs := acc.objs.set id {sl with color := .white},
                 dead_slot := false }

/-- Sweep one page: record `full = (freelist == NULL)`, run the slot loop over
`objects[]` in address order, then either retire the page (when `dead_slot`
survived and `freed < MRB_HEAP_PAGE_SIZE`: unlink from both lists and free
it) or retain it (re-linking it into the free-pages list when it was full and
now has free slots); finally subtract `freed` from `live` and from
`gc_live_after_mark`. -/
def sweep_page (cfg : Cfg) (st : State) (pid : Nat) : State :=
  let page := pageGet st pid
  let full := page.freelist.isEmpty
  let acc := (pageIds cfg page).foldl sweepSlot ⟨st.objs, page.freelist, 0, true⟩
  let st := setPage {st with objs := acc.objs} pid {page with freelist := acc.freelist}
  let st :=
    if acc.dead_slot ∧ acc.freed < cfg.heapPageSize then
      unlink_free_heap_page (unlink_heap_page st pid) pid
    else
      if full ∧ 0 < acc.freed then link_free_heap_page st pid else st
  {st with live := st.live - acc.freed,
           gc_live_after_mark := st.gc_live_after_mark - acc.freed}

/-- The page loop of `sweep`, over the worklist of page ids captured by
`prepare_sweep` (unlinking the current page does not disturb the saved `next`
pointer, so the traversal is exactly the captured list). -/
def sweep_go (cfg : Cfg) (st : State) (work : List Nat) : State :=
  match work with
  | [] => {st with sweeps := []}
  | pid :: rest => sweep_go cfg (sweep_page cfg st pid) rest

/-- `prepare_sweep`. -/
def prepare_sweep (st : State) : State :=
  {st with gc_state := .SWEEP, sweeps := st.heaps, gc_live_after_mark := st.live}

/-- `sweep(mrb)`. -/
def sweep (cfg : Cfg) (st : State) : State :=
  sweep_go cfg st st.sweeps

/-- `gc(mrb)`: mark, enter the sweep state, `prepare_sweep`, `sweep`, return
to the idle state. -/
def gc (cfg : Cfg) (st : State) : State :=
  let st := mark st
  let st := {st with gc_state := .SWEEP}
  let st := prepare_sweep st
  let st := sweep cfg st
  {st with gc_state := .NONE}

/-- `mrb_garbage_collect`: a no-op when the GC is disabled. -/
def mrb_garbage_collect (cfg : Cfg) (st : State) : State :=
  if st.gc_disabled then st else gc cfg st

/-! ### Object allocation (`mrb_obj_alloc`) -/

/-- The tail of `mrb_obj_alloc` after the exhaustion check: pop the head of
the front free page's free list (unlinking the page when its list empties),
bump `live`, pin the object in the arena (which can raise on arena overflow,
abandoning the allocation), zero the slot, set `tt` and `c`, and paint it
white.  The `nullDeref` arms mark where the C code would dereference a null
pointer; they are unreachable under the invariants. -/
def alloc_from_page (cfg : Cfg) (st : State) (ttype : Vtype) (cls : Option Nat) :
    Except (Err × State) (Nat × State) :=
  match st.free_heaps with
  | [] => .error (.nullDeref, st)
  | fp :: _ =>
    let page := pageGet st fp
    match page.freelist with
    | [] => .error (.nullDeref, st)
    | p :: rest =>
      let st := setPage st fp {page with freelist := rest}
      let st := if rest.isEmpty then unlink_free_heap_page st fp else st
      let st := {st with live := st.live + 1}
      match gc_protect cfg st p with
      | .error e => .error e
      | .ok st => .ok (p, setObj st p ⟨ttype, .white, cls, []⟩)

/-- `mrb_obj_alloc`: when no page has free slots, collect and then
unconditionally add a page; then allocate from the front free page. -/
def mrb_obj_alloc (cfg : Cfg) (st0 : State) (ttype : Vtype) (cls : Option Nat) :
    Except (Err × State) (Nat × State) :=
  alloc_from_page cfg
    (if st0.free_heaps.isEmpty
     then add_heap cfg (mrb_garbage_collect cfg st0)
     else st0) ttype cls

/-! ### Allocator facade (`mrb_realloc`, `mrb_calloc`) -/

/-- Outcome of a `mrb_realloc` call.  `ptr` is whether the returned pointer is
non-null, `calls` how many times `allocf` was invoked, `gcTriggered` whether
the collection-and-retry path ran, `raised` the error `mrb_raise` was invoked
with (if any). -/
structure ReallocOut where
  ptr : Bool
  st : State
  calls : Nat
  gcTriggered : Bool
  raised : Option Err
  deriving DecidableEq, Repr

/-- `mrb_realloc(mrb, p, len)` with the two potential `allocf` results
abstracted as the oracles `r1` (first call) and `r2` (retry).  On a null
result with `len > 0` and an initialized heap (`mrb->heaps` non-null), run
`mrb_garbage_collect` and call `allocf` once more.  If the result is still
null (and `len` non-zero): when `out_of_memory` is already set, do nothing
(the panic call is commented out in the source); otherwise set the flag and
raise "Out of memory".  Otherwise clear the flag. -/
def mrb_realloc (cfg : Cfg) (st0 : State) (len : Nat) (r1 r2 : Bool) : ReallocOut :=
  let retry := ¬r1 ∧ 0 < len ∧ st0.heaps ≠ []
  let st1 := if retry then mrb_garbage_collect cfg st0 else st0
  let p2 := if retry then r2 else r1
  let calls := if retry then 2 else 1
  if ¬p2 ∧ len ≠ 0 then
    if st1.out_of_memory then
      ⟨p2, st1, calls, retry, none⟩
    else
      ⟨p2, {st1 with out_of_memory := true}, calls, retry,
       some (.runtimeError "Out of memory")⟩
  else
    ⟨p2, {st1 with out_of_memory := false}, calls, retry, none⟩

/-- Outcome of a `mrb_calloc` call; `none` marks undefined behaviour (the
division by zero in the guard when `len = 0`).  `zeroed` is whether the
`memset` ran. -/
structure CallocOut where
  ptr : Bool
  st : State
  calls : Nat
  gcTriggered : Bool
  raised : Option Err
  zeroed : Bool
  deriving DecidableEq, Repr

/-- `mrb_calloc(mrb, nelem, len)`: guard `nelem <= SIZE_MAX / len` (for
`len = 0` this divides by zero, which is undefined behaviour in C: the model
returns `none` there); on overflow return null without calling the allocator;
otherwise allocate `nelem * len` bytes through `mrb_realloc` and `memset` the
result to zero when it is non-null and the size is positive. -/
def mrb_calloc (cfg : Cfg) (st : State) (nelem len : Nat) (r1 r2 : Bool) :
    Option CallocOut :=
  if len = 0 then none
  else if nelem ≤ cfg.sizeMax / len then
    let size := nelem * len
    let r := mrb_realloc cfg st size r1 r2
    some ⟨r.ptr, r.st, r.calls, r.gcTriggered, r.raised, r.ptr ∧ 0 < size⟩
  else some ⟨false, st, 0, false, none, false⟩

/-! ### Basic facts about `add_heap` and `alloc_from_page` -/

theorem add_heap_free_heaps (cfg : Cfg) (st : State) :
    (add_heap cfg st).free_heaps = st.pages.length :: st.free_heaps := rfl

theorem add_heap_heaps (cfg : Cfg) (st : State) :
    (add_heap cfg st).heaps = st.pages.length :: st.heaps := rfl

theorem add_heap_pages (cfg : Cfg) (st : State) :
    (add_heap cfg st).pages =
      st.pages ++ [⟨st.objs.length,
        ((List.range cfg.heapPageSize).map (st.objs.length + ·)).reverse⟩] := rfl

theorem add_heap_objs (cfg : Cfg) (st : State) :
    (add_heap cfg st).objs = st.objs ++ List.replicate cfg.heapPageSize freeSlot := rfl

theorem add_heap_live (cfg : Cfg) (st : State) :
    (add_heap cfg st).live = st.live := rfl

theorem add_heap_arena_idx (cfg : Cfg) (st : State) :
    (add_heap cfg st).arena_idx = st.arena_idx := rfl

/-- The page `add_heap` creates, looked up by its id. -/
theorem pageGet_add_heap (cfg : Cfg) (st : State) :
    pageGet (add_heap cfg st) st.pages.length =
      ⟨st.objs.length, ((List.range cfg.heapPageSize).map (st.objs.length + ·)).reverse⟩ := by
  unfold pageGet
  rw [add_heap_pages]
  simp [List.getD_eq_getElem?_getD, List.getElem?_concat_length]

/-- Successful path of `alloc_from_page`: with a front free page whose free
list is non-empty and room in the arena, the popped head is returned and the
state is updated as the source describes. -/
theorem alloc_from_page_ok (cfg : Cfg) (st : State) (ttype : Vtype) (cls : Option Nat)
    (fp : Nat) (rest0 : List Nat) (p : Nat) (rest : List Nat)
    (hfh : st.free_heaps = fp :: rest0)
    (hfl : (pageGet st fp).freelist = p :: rest)
    (hidx : st.arena_idx < (cfg.arenaSize : Int)) :
    ∃ st2, alloc_from_page cfg st ttype cls = .ok (p, st2) ∧
      st2.objs = st.objs.set p ⟨ttype, .white, cls, []⟩ ∧
      st2.pages = st.pages.set fp {pageGet st fp with freelist := rest} ∧
      st2.heaps = st.heaps ∧
      st2.live = st.live + 1 ∧
      st2.free_heaps = (if rest.isEmpty then st.free_heaps.erase fp else st.free_heaps) ∧
      st2.arena = st.arena.set st.arena_idx.toNat (some p) ∧
      st2.arena_idx = st.arena_idx + 1 ∧
      st2.gc_disabled = st.gc_disabled ∧
      st2.gv_roots = st.gv_roots ∧
      st2.object_class = st.object_class ∧
      st2.top_self = st.top_self ∧
      st2.exc = st.exc ∧
      st2.context_roots = st.context_roots ∧
      st2.irep_roots = st.irep_roots := by
  have hnle : ¬((cfg.arenaSize : Int) ≤ st.arena_idx) := not_le.mpr hidx
  by_cases hre : rest.isEmpty = true
  · simp only [alloc_from_page, hfh, hfl, setPage, unlink_free_heap_page, setObj]
    rw [if_pos hre]
    simp only [gc_protect]
    rw [if_neg hnle]
    refine ⟨_, rfl, rfl, rfl, rfl, rfl, ?_, rfl, rfl, rfl, rfl, rfl, rfl, rfl, rfl, rfl⟩
    simp [hfh, hre]
  · simp only [alloc_from_page, hfh, hfl, setPage, unlink_free_heap_page, setObj]
    rw [if_neg hre]
    simp only [gc_protect]
    rw [if_neg hnle]
    refine ⟨_, rfl, rfl, rfl, rfl, rfl, ?_, rfl, rfl, rfl, rfl, rfl, rfl, rfl, rfl, rfl⟩
    simp [hfh, hre]

/-! ### Field preservation across the collector -/

/-- `sweep_page` touches only the heap bookkeeping (`objs`, `pages`, the page
lists, `live`, `gc_live_after_mark`); every other state field is unchanged. -/
theorem sweep_page_fields (cfg : Cfg) (st : State) (pid : Nat) :
    (sweep_page cfg st pid).arena = st.arena ∧
    (sweep_page cfg st pid).arena_idx = st.arena_idx ∧
    (sweep_page cfg st pid).gv_roots = st.gv_roots ∧
    (sweep_page cfg st pid).object_class = st.object_class ∧
    (sweep_page cfg st pid).top_self = st.top_self ∧
    (sweep_page cfg st pid).exc = st.exc ∧
    (sweep_page cfg st pid).context_roots = st.context_roots ∧
    (sweep_page cfg st pid).irep_roots = st.irep_roots ∧
    (sweep_page cfg st pid).gc_disabled = st.gc_disabled ∧
    (sweep_page cfg st pid).out_of_memory = st.out_of_memory ∧
    (sweep_page cfg st pid).gc_state = st.gc_state ∧
    (sweep_page cfg st pid).sweeps = st.sweeps := by
  unfold sweep_page setPage unlink_heap_page unlink_free_heap_page link_free_heap_page
  dsimp only
  split
  · exact ⟨rfl, rfl, rfl, rfl, rfl, rfl, rfl, rfl, rfl, rfl, rfl, rfl⟩
  · split
    · exact ⟨rfl, rfl, rfl, rfl, rfl, rfl, rfl, rfl, rfl, rfl, rfl, rfl⟩
    · exact ⟨rfl, rfl, rfl, rfl, rfl, rfl, rfl, rfl, rfl, rfl, rfl, rfl⟩

/-- The sweep loop preserves the same fields. -/
theorem sweep_go_fields (cfg : Cfg) (work : List Nat) (st : State) :
    (sweep_go cfg st work).arena = st.arena ∧
    (sweep_go cfg st work).arena_idx = st.arena_idx ∧
    (sweep_go cfg st work).gv_roots = st.gv_roots ∧
    (sweep_go cfg st work).object_class = st.object_class ∧
    (sweep_go cfg st work).top_self = st.top_self ∧
    (sweep_go cfg st work).exc = st.exc ∧
    (sweep_go cfg st work).context_roots = st.context_roots ∧
    (sweep_go cfg st work).irep_roots = st.irep_roots ∧
    (sweep_go cfg st work).gc_disabled = st.gc_disabled ∧
    (sweep_go cfg st work).out_of_memory = st.out_of_memory := by
  induction work generalizing st with
  | nil => exact ⟨rfl, rfl, rfl, rfl, rfl, rfl, rfl, rfl, rfl, rfl⟩
  | cons pid rest ih =>
    have h1 := sweep_page_fields cfg st pid
    have h2 := ih (sweep_page cfg st pid)
    exact ⟨h2.1.trans h1.1, h2.2.1.trans h1.2.1, h2.2.2.1.trans h1.2.2.1,
      h2.2.2.2.1.trans h1.2.2.2.1, h2.2.2.2.2.1.trans h1.2.2.2.2.1,
      h2.2.2.2.2.2.1.trans h1.2.2.2.2.2.1, h2.2.2.2.2.2.2.1.trans h1.2.2.2.2.2.2.1,
      h2.2.2.2.2.2.2.2.1.trans h1.2.2.2.2.2.2.2.1,
      h2.2.2.2.2.2.2.2.2.1.trans h1.2.2.2.2.2.2.2.2.1,
      h2.2.2.2.2.2.2.2.2.2.trans h1.2.2.2.2.2.2.2.2.2.1⟩

/-- A full `gc` leaves the arena, the root providers and the allocator flags
untouched. -/
theorem gc_fields (cfg : Cfg) (st : State) :
    (gc cfg st).arena = st.arena ∧
    (gc cfg st).arena_idx = st.arena_idx ∧
    (gc cfg st).gv_roots = st.gv_roots ∧
    (gc cfg st).object_class = st.object_class ∧
    (gc cfg st).top_self = st.top_self ∧
    (gc cfg st).exc = st.exc ∧
    (gc cfg st).context_roots = st.context_roots ∧
    (gc cfg st).irep_roots = st.irep_roots ∧
    (gc cfg st).gc_disabled = st.gc_disabled ∧
    (gc cfg st).out_of_memory = st.out_of_memory := by
  have h := sweep_go_fields cfg (prepare_sweep {mark st with gc_state := .SWEEP}).sweeps
    (prepare_sweep {mark st with gc_state := .SWEEP})
  exact ⟨h.1, h.2.1, h.2.2.1, h.2.2.2.1, h.2.2.2.2.1, h.2.2.2.2.2.1,
    h.2.2.2.2.2.2.1, h.2.2.2.2.2.2.2.1, h.2.2.2.2.2.2.2.2.1, h.2.2.2.2.2.2.2.2.2⟩

/-- `mrb_garbage_collect` likewise. -/
theorem mrb_garbage_collect_fields (cfg : Cfg) (st : State) :
    (mrb_garbage_collect cfg st).arena = st.arena ∧
    (mrb_garbage_collect cfg st).arena_idx = st.arena_idx ∧
    (mrb_garbage_collect cfg st).gc_disabled = st.gc_disabled ∧
    (mrb_garbage_collect cfg st).out_of_memory = st.out_of_memory := by
  unfold mrb_garbage_collect
  split
  · exact ⟨rfl, rfl, rfl, rfl⟩
  · have h := gc_fields cfg st
    exact ⟨h.1, h.2.1, h.2.2.2.2.2.2.2.2.1, h.2.2.2.2.2.2.2.2.2⟩

/-! ### Concrete states for scenarios and witnesses -/

/-- A freshly created interpreter state before `mrb_init_heap`, with no
external roots: the `mrb_state` is `calloc`ed, so counters are zero and the
arena entries are null. -/
def blankState (cfg : Cfg) : State :=
  { objs := [], pages := [], heaps := [], free_heaps := [], sweeps := []
    live := 0, gc_live_after_mark := 0, gc_state := .NONE, gc_disabled := false
    out_of_memory := false, arena := List.replicate cfg.arenaSize none, arena_idx := 0
    gv_roots := [], object_class := none, top_self := none, exc := none
    context_roots := [], irep_roots := [] }

/-- Run one `mrb_obj_alloc(mrb, MRB_TT_OBJECT, 0)` and keep the state when it
returns normally. -/
def allocStep (cfg : Cfg) (s : Option State) : Option State :=
  s.bind fun st =>
    match mrb_obj_alloc cfg st .OBJECT none with
    | .ok (_, st1) => some st1
    | .error _ => none

/-- Configuration of the page-retirement scenario: `MRB_HEAP_PAGE_SIZE = 2`. -/
def cfgC1 : Cfg := ⟨2, 8, 1000000000⟩

/-- The page-retirement scenario: init heap, allocate 3 objects (the third
allocation finds `free_heaps` empty, collects, and adds a second page), clear
all roots (`mrb_gc_arena_restore(mrb, 0)`; every other root is empty), then
collect. -/
def scenarioC1 : Option State :=
  (allocStep cfgC1 (allocStep cfgC1 (allocStep cfgC1
      (some (mrb_init_heap cfgC1 (blankState cfgC1)))))).map
    fun st => mrb_garbage_collect cfgC1 (mrb_gc_arena_restore st 0)

/-- Extract the message of a raised allocation error. -/
def allocErrMsg : Except (Err × State) (Nat × State) → Option String
  | .error (.runtimeError m, _) => some m
  | _ => none

/-! ### Claim theorems -/

/-- Claim C1: with `HEAP_PAGE_SIZE = 2`, after allocating 3 objects (which
forces a second page), clearing all roots and running one collection, the
page that becomes entirely dead with `freed < P` (page 1, which held one
object and one already-free slot) is unlinked from the all-pages and
free-pages lists and freed, while page 0 is retained (and, having been full
with `freed > 0`, is re-linked into the free-pages list); `live` drops to 0
and every slot is `FREE`.  The per-page retirement condition is the
`dead_slot && freed < MRB_HEAP_PAGE_SIZE` guard embedded in `sweep_page`. -/
theorem C1_sweep_page_retirement :
    (scenarioC1.map fun st =>
        (st.heaps, st.free_heaps, st.live, st.objs.map Slot.tt,
         decide (1 ∈ st.heaps), decide (1 ∈ st.free_heaps))) =
      some ([0], [0], 0, [.FREE, .FREE, .FREE, .FREE], false, false) := by
  rfl

/-- Claim C2: when the first `allocf` call returns null, the request size is
positive and the heap is initialized, `mrb_realloc` runs `mrb_garbage_collect`
and retries exactly once (two `allocf` calls in total); if the retry is still
null it sets `out_of_memory` and raises "Out of memory" unless the flag was
already set (then nothing is raised); on a non-null result the flag is
cleared (also on the no-retry path). -/
theorem C2_realloc_retry (cfg : Cfg) (st : State) (len : Nat) (r2 : Bool)
    (hlen : 0 < len) (hheaps : st.heaps ≠ []) :
    (mrb_realloc cfg st len false r2).gcTriggered = true ∧
    (mrb_realloc cfg st len false r2).calls = 2 ∧
    (mrb_realloc cfg st len false r2).st.heaps = (mrb_garbage_collect cfg st).heaps ∧
    (mrb_realloc cfg st len false r2).st.objs = (mrb_garbage_collect cfg st).objs ∧
    (r2 = false → st.out_of_memory = false →
      (mrb_realloc cfg st len false r2).st.out_of_memory = true ∧
      (mrb_realloc cfg st len false r2).raised = some (.runtimeError "Out of memory")) ∧
    (r2 = false → st.out_of_memory = true →
      (mrb_realloc cfg st len false r2).raised = none ∧
      (mrb_realloc cfg st len false r2).st.out_of_memory = true) ∧
    (r2 = true →
      (mrb_realloc cfg st len false r2).ptr = true ∧
      (mrb_realloc cfg st len false r2).st.out_of_memory = false ∧
      (mrb_realloc cfg st len false r2).raised = none) ∧
    (∀ s1 s2 : Bool, (mrb_realloc cfg st len s1 s2).ptr = true →
      (mrb_realloc cfg st len s1 s2).st.out_of_memory = false) := by
  have hoom : (mrb_garbage_collect cfg st).out_of_memory = st.out_of_memory :=
    (mrb_garbage_collect_fields cfg st).2.2.2
  have hne : len ≠ 0 := Nat.pos_iff_ne_zero.mp hlen
  have key : ∀ b : Bool, mrb_realloc cfg st len false b =
      if b then
        ⟨true, {mrb_garbage_collect cfg st with out_of_memory := false}, 2, true, none⟩
      else if st.out_of_memory then
        ⟨false, mrb_garbage_collect cfg st, 2, true, none⟩
      else
        ⟨false, {mrb_garbage_collect cfg st with out_of_memory := true}, 2, true,
          some (.runtimeError "Out of memory")⟩ := by
    intro b
    cases b <;> cases hgo : st.out_of_memory <;>
      simp [mrb_realloc, hne, hlen, hheaps, hgo, hoom]
  refine ⟨?_, ?_, ?_, ?_, ?_, ?_, ?_, ?_⟩
  · rw [key]; cases r2 <;> cases hgo : st.out_of_memory <;> simp [hgo]
  · rw [key]; cases r2 <;> cases hgo : st.out_of_memory <;> simp [hgo]
  · rw [key]; cases r2 <;> cases hgo : st.out_of_memory <;> simp [hgo]
  · rw [key]; cases r2 <;> cases hgo : st.out_of_memory <;> simp [hgo]
  · intro hr2 hflag; rw [key]; simp [hr2, hflag, hoom]
  · intro hr2 hflag; rw [key]; simp [hr2, hflag, hoom]
  · intro hr2; rw [key]; simp [hr2, hoom]
  · intro s1 s2 hp
    revert hp
    unfold mrb_realloc
    cases s1 <;> cases s2 <;>
      simp [hne, hlen, hheaps, hoom] <;>
      (try cases hgo : st.out_of_memory) <;> simp [hgo]

/-- Claim C2 witness: a concrete failing-then-failing call on an initialized
heap raises "Out of memory". -/
theorem C2_realloc_retry_witness :
    0 < 16 ∧ (mrb_init_heap cfgC1 (blankState cfgC1)).heaps ≠ [] ∧
    (mrb_realloc cfgC1 (mrb_init_heap cfgC1 (blankState cfgC1)) 16 false false).calls = 2 := by
  refine ⟨by decide, by decide, ?_⟩
  exact (C2_realloc_retry cfgC1 (mrb_init_heap cfgC1 (blankState cfgC1)) 16 false
    (by decide) (by decide)).2.1

/-- Configuration for the arena-overflow allocation counterexample:
`MRB_HEAP_PAGE_SIZE = 1`, `MRB_ARENA_SIZE = 4`. -/
def cfgC3 : Cfg := ⟨1, 4, 1000000⟩

/-- A state with no free pages whose arena is already at capacity. -/
def stC3 : State := {blankState cfgC3 with arena_idx := 4}

/-- Claim C3 counterexample: with `free_heaps` empty and the arena at
capacity, `mrb_obj_alloc` does collect and add a fresh page, but the
automatic pin of the popped slot (`gc_protect`) raises "arena overflow
error", so the allocation returns no slot even though the host allocator
never failed. -/
theorem C3_alloc_never_null_counterexample :
    allocErrMsg (mrb_obj_alloc cfgC3 stC3 .OBJECT none) = some "arena overflow error" := by
  rfl

/-- Claim C3 (amended): when `free_heaps == null`, `mrb_obj_alloc` runs a
collection and then unconditionally adds a fresh page, so — provided the
arena has room for the automatic pin — the allocation returns a slot, host
out-of-memory aside (page memory is assumed granted in this model); the
collection part is `mrb_garbage_collect`, which skips the actual collection
when the GC is disabled, while the page is still added and the allocation
still succeeds. -/
theorem C3_alloc_after_exhaustion (cfg : Cfg) (st : State) (ttype : Vtype) (cls : Option Nat)
    (hfh : st.free_heaps = []) (hP : 0 < cfg.heapPageSize)
    (hidx : st.arena_idx < (cfg.arenaSize : Int)) :
    ∃ p st2, mrb_obj_alloc cfg st ttype cls = .ok (p, st2) ∧
      st2.heaps = (mrb_garbage_collect cfg st).pages.length
                    :: (mrb_garbage_collect cfg st).heaps ∧
      st2.live = (mrb_garbage_collect cfg st).live + 1 ∧
      (st.gc_disabled = true → mrb_garbage_collect cfg st = st) := by
  set g := mrb_garbage_collect cfg st with hg
  have hga : g.arena_idx = st.arena_idx := (mrb_garbage_collect_fields cfg st).2.1
  have hred : mrb_obj_alloc cfg st ttype cls = alloc_from_page cfg (add_heap cfg g) ttype cls := by
    unfold mrb_obj_alloc
    rw [hfh]
    rfl
  have hne : ((List.range cfg.heapPageSize).map (g.objs.length + ·)).reverse ≠ [] := by
    intro hcontra
    rw [List.reverse_eq_nil_iff, List.map_eq_nil_iff, List.range_eq_nil] at hcontra
    omega
  obtain ⟨hd, tl, hcons⟩ := List.exists_cons_of_ne_nil hne
  have hflist : (pageGet (add_heap cfg g) g.pages.length).freelist = hd :: tl := by
    rw [pageGet_add_heap]
    exact hcons
  obtain ⟨st2, heq, _, _, hheaps, hlive, _⟩ :=
    alloc_from_page_ok cfg (add_heap cfg g) ttype cls g.pages.length g.free_heaps hd tl
      (add_heap_free_heaps cfg g) hflist
      (by rw [add_heap_arena_idx, hga]; exact hidx)
  refine ⟨hd, st2, ?_, ?_, ?_, ?_⟩
  · rw [hred, heq]
  · rw [hheaps, add_heap_heaps]
  · rw [hlive, add_heap_live]
  · intro h
    rw [hg]
    simp [mrb_garbage_collect, h]

/-- Claim C3 witness for the amended statement: a fresh state with no pages
allocates successfully after collect-and-add-page. -/
theorem C3_alloc_after_exhaustion_witness :
    (blankState cfgC1).free_heaps = [] ∧ 0 < cfgC1.heapPageSize ∧
    (blankState cfgC1).arena_idx < (cfgC1.arenaSize : Int) ∧
    ∃ p st2, mrb_obj_alloc cfgC1 (blankState cfgC1) .OBJECT none = .ok (p, st2) := by
  refine ⟨rfl, by decide, by decide, ?_⟩
  obtain ⟨p, st2, heq, -, -, -⟩ :=
    C3_alloc_after_exhaustion cfgC1 (blankState cfgC1) .OBJECT none rfl (by decide) (by decide)
  exact ⟨p, st2, heq⟩

/-- Claim C7 counterexample: at `m = 1`, `n = 0` the claim asserts a
zero-byte allocation, but the guard `nelem <= SIZE_MAX / len` divides by
zero, which is undefined behaviour in C (`none` in the model) — not an
allocation. -/
theorem C7_calloc_len_zero_counterexample :
    mrb_calloc cfgC1 (blankState cfgC1) 1 0 true true = none := rfl

/-- Claim C7 (amended): for every `m` and `n` with `n > 0`, `mrb_calloc`
rejects the request — returning null without calling the allocator — exactly
when `m * n` would overflow `SIZE_MAX`, and otherwise allocates `m * n` bytes
through `mrb_realloc` and zero-fills them when the result is non-null and the
size positive; for `n = 0` the guard's division is undefined behaviour. -/
theorem C7_calloc_overflow_guard (cfg : Cfg) (st : State) (nelem len : Nat) (r1 r2 : Bool)
    (hlen : 0 < len) :
    (cfg.sizeMax < nelem * len →
        mrb_calloc cfg st nelem len r1 r2 = some ⟨false, st, 0, false, none, false⟩) ∧
    (nelem * len ≤ cfg.sizeMax →
        mrb_calloc cfg st nelem len r1 r2 =
          some ⟨(mrb_realloc cfg st (nelem * len) r1 r2).ptr,
                (mrb_realloc cfg st (nelem * len) r1 r2).st,
                (mrb_realloc cfg st (nelem * len) r1 r2).calls,
                (mrb_realloc cfg st (nelem * len) r1 r2).gcTriggered,
                (mrb_realloc cfg st (nelem * len) r1 r2).raised,
                (mrb_realloc cfg st (nelem * len) r1 r2).ptr ∧ 0 < nelem * len⟩) := by
  constructor
  · intro hover
    have hguard : ¬(nelem ≤ cfg.sizeMax / len) := by
      rw [Nat.le_div_iff_mul_le hlen]
      omega
    simp [mrb_calloc, Nat.pos_iff_ne_zero.mp hlen, hguard]
  · intro hle
    have hguard : nelem ≤ cfg.sizeMax / len := by
      rw [Nat.le_div_iff_mul_le hlen]
      omega
    simp [mrb_calloc, Nat.pos_iff_ne_zero.mp hlen, hguard]

/-- Claim C7 witness for the amended statement: an overflowing request is
rejected with zero allocator calls. -/
theorem C7_calloc_overflow_guard_witness :
    0 < 2 ∧ cfgC1.sizeMax < 1000000000 * 2 ∧
    mrb_calloc cfgC1 (blankState cfgC1) 1000000000 2 true true =
      some ⟨false, blankState cfgC1, 0, false, none, false⟩ :=
  ⟨by decide, by decide,
   (C7_calloc_overflow_guard cfgC1 (blankState cfgC1) 1000000000 2 true true
     (by decide)).1 (by decide)⟩

/-- Claim C8: when the arena is at capacity, `gc_protect` first rewinds
`arena_idx` to `MRB_ARENA_SIZE - 4` (reserving four slack slots so the raise,
which itself allocates, can proceed) and then raises the runtime error
"arena overflow error"; the object is not pushed and the arena contents are
unchanged. -/
theorem C8_gc_protect_overflow (cfg : Cfg) (st : State) (p : Nat)
    (h : (cfg.arenaSize : Int) ≤ st.arena_idx) :
    gc_protect cfg st p =
      .error (.runtimeError "arena overflow error",
              {st with arena_idx := (cfg.arenaSize : Int) - 4}) ∧
    ({st with arena_idx := (cfg.arenaSize : Int) - 4}).arena = st.arena := by
  exact ⟨by simp [gc_protect, h], rfl⟩

/-- Claim C8 witness: a concrete overflowing protect. -/
theorem C8_gc_protect_overflow_witness :
    ((cfgC1.arenaSize : Int) ≤ ({blankState cfgC1 with arena_idx := 8}).arena_idx) ∧
    gc_protect cfgC1 {blankState cfgC1 with arena_idx := 8} 5 =
      .error (.runtimeError "arena overflow error",
              {{blankState cfgC1 with arena_idx := 8} with
                 arena_idx := (cfgC1.arenaSize : Int) - 4}) :=
  ⟨by decide,
   (C8_gc_protect_overflow cfgC1 {blankState cfgC1 with arena_idx := 8} 5 (by decide)).1⟩

/-- Claim C10: `mrb_gc_arena_restore(mrb, idx)` stores exactly the given
integer with no bounds or monotonicity check, leaving the arena array itself
untouched; consequently the root list the next mark walks takes the first
`idx` arena entries, so after restoring past the current depth the stale
pointers in slots `[old depth, idx)` are treated as roots. -/
theorem C10_arena_restore_exact (st : State) (idx : Int) :
    (mrb_gc_arena_restore st idx).arena_idx = idx ∧
    (mrb_gc_arena_restore st idx).arena = st.arena ∧
    rootList (mrb_gc_arena_restore st idx) =
      st.gv_roots ++ st.arena.take idx.toNat
        ++ [st.object_class, st.top_self, st.exc]
        ++ st.context_roots ++ st.irep_roots ∧
    (∀ i r, i < idx.toNat → st.arena.get? i = some r →
        r ∈ rootList (mrb_gc_arena_restore st idx)) := by
  refine ⟨rfl, rfl, rfl, ?_⟩
  intro i r hi hget
  have h1 : (st.arena.take idx.toNat).get? i = some r := by
    rw [List.get?_take hi]
    exact hget
  have h2 : r ∈ st.arena.take idx.toNat := List.get?_mem h1
  have h3 : rootList (mrb_gc_arena_restore st idx) =
      st.gv_roots ++ st.arena.take idx.toNat
        ++ [st.object_class, st.top_self, st.exc]
        ++ st.context_roots ++ st.irep_roots := rfl
  rw [h3]
  simp [List.mem_append, h2]

/-- A state with one stale arena entry above the current depth. -/
def stC10 : State :=
  {blankState cfgC1 with
    arena := [none, some 7, none, none, none, none, none, none], arena_idx := 1}

/-- Claim C10 witness: restoring from depth 1 to depth 3 causes the stale
entry at slot 1 to be a root of the next mark. -/
theorem C10_arena_restore_exact_witness :
    (1 : Nat) < (3 : Int).toNat ∧ stC10.arena.get? 1 = some (some 7) ∧
    (mrb_gc_arena_restore stC10 3).arena_idx = 3 ∧
    some 7 ∈ rootList (mrb_gc_arena_restore stC10 3) := by
  refine ⟨by decide, rfl, (C10_arena_restore_exact stC10 3).1, ?_⟩
  exact (C10_arena_restore_exact stC10 3).2.2.2 1 (some 7) (by decide) rfl

/-! ### Generic list helpers -/

theorem lt_length_of_get?_some {α : Type} {l : List α} {i : Nat} {a : α}
    (h : l.get? i = some a) : i < l.length := by
  by_contra hc
  rw [List.get?_eq_none.mpr (Nat.le_of_not_lt hc)] at h
  cases h

theorem get?_set_self {α : Type} :
    ∀ (l : List α) (i : Nat) (a b : α), l.get? i = some b →
      (l.set i a).get? i = some a := by
  intro l
  induction l with
  | nil => intro i a b h; cases h
  | cons x xs ih =>
    intro i a b h
    cases i with
    | zero => rfl
    | succ n => exact ih n a b h

theorem get?_set_ne {α : Type} :
    ∀ (l : List α) (i j : Nat) (a : α), i ≠ j →
      (l.set i a).get? j = l.get? j := by
  intro l
  induction l with
  | nil => intro i j a _; rfl
  | cons x xs ih =>
    intro i j a hne
    cases i with
    | zero =>
      cases j with
      | zero => exact absurd rfl hne
      | succ m => rfl
    | succ n =>
      cases j with
      | zero => rfl
      | succ m => exact ih n m a (fun hc => hne (by rw [hc]))

theorem countP_congr_list {α : Type} (p q : α → Bool) :
    ∀ (l : List α), (∀ a ∈ l, p a = q a) → l.countP p = l.countP q := by
  intro l
  induction l with
  | nil => intro _; rfl
  | cons x xs ih =>
    intro h
    rw [List.countP_cons, List.countP_cons, h x (List.mem_cons_self x xs),
      ih (fun a ha => h a (List.mem_cons_of_mem x ha))]

theorem all_congr_list {α : Type} (p q : α → Bool) :
    ∀ (l : List α), (∀ a ∈ l, p a = q a) → l.all p = l.all q := by
  intro l
  induction l with
  | nil => intro _; rfl
  | cons x xs ih =>
    intro h
    rw [List.all_cons, List.all_cons, h x (List.mem_cons_self x xs),
      ih (fun a ha => h a (List.mem_cons_of_mem x ha))]

theorem filter_congr_list {α : Type} (p q : α → Bool) :
    ∀ (l : List α), (∀ a ∈ l, p a = q a) → l.filter p = l.filter q := by
  intro l
  induction l with
  | nil => intro _; rfl
  | cons x xs ih =>
    intro h
    rw [List.filter_cons, List.filter_cons, h x (List.mem_cons_self x xs),
      ih (fun a ha => h a (List.mem_cons_of_mem x ha))]

theorem map_sum_set {α : Type} (f : α → Nat) :
    ∀ (l : List α) (i : Nat) (a b : α), l.get? i = some b →
      ((l.set i a).map f).sum + f b = (l.map f).sum + f a := by
  intro l
  induction l with
  | nil => intro i a b h; cases h
  | cons x xs ih =>
    intro i a b h
    cases i with
    | zero =>
      cases h
      simp only [List.set, List.map_cons, List.sum_cons]
      omega
    | succ n =>
      have := ih n a b h
      simp only [List.set, List.map_cons, List.sum_cons]
      omega

theorem countP_set {α : Type} (p : α → Bool) :
    ∀ (l : List α) (i : Nat) (a b : α), l.get? i = some b →
      (l.set i a).countP p + (if p b then 1 else 0) =
        l.countP p + (if p a then 1 else 0) := by
  intro l
  induction l with
  | nil => intro i a b h; cases h
  | cons x xs ih =>
    intro i a b h
    cases i with
    | zero =>
      cases h
      simp only [List.set, List.countP_cons]
      omega
    | succ n =>
      have := ih n a b h
      simp only [List.set, List.countP_cons]
      omega

/-! ### Properties of `paintBlackAt` and the marker -/

theorem paintBlackAt_of_none {objs : List Slot} {id : Nat}
    (hj : objs.get? id = none) : paintBlackAt objs id = objs := by
  unfold paintBlackAt
  rw [hj]

theorem paintBlackAt_of_some {objs : List Slot} {id : Nat} {sl : Slot}
    (hj : objs.get? id = some sl) :
    paintBlackAt objs id = objs.set id {sl with color := .black} := by
  unfold paintBlackAt
  rw [hj]

theorem slotRefs_of_none {objs : List Slot} {id : Nat}
    (hj : objs.get? id = none) : slotRefs objs id = [] := by
  unfold slotRefs
  rw [hj]

theorem slotRefs_of_some {objs : List Slot} {id : Nat} {sl : Slot}
    (hj : objs.get? id = some sl) : slotRefs objs id = sl.c :: sl.refs := by
  unfold slotRefs
  rw [hj]

theorem isWhiteAt_of_none {objs : List Slot} {id : Nat}
    (hj : objs.get? id = none) : isWhiteAt objs id = false := by
  unfold isWhiteAt
  rw [hj]

theorem isWhiteAt_of_some {objs : List Slot} {id : Nat} {sl : Slot}
    (hj : objs.get? id = some sl) : isWhiteAt objs id = decide (sl.color = .white) := by
  unfold isWhiteAt
  rw [hj]

theorem isBlackAt_of_some {objs : List Slot} {id : Nat} {sl : Slot}
    (hj : objs.get? id = some sl) : isBlackAt objs id = decide (sl.color = .black) := by
  unfold isBlackAt
  rw [hj]

/-- With two colours, an existing slot is either white or black. -/
theorem black_of_nonwhite {objs : List Slot} {id : Nat} {sl : Slot}
    (hj : objs.get? id = some sl) (hw : isWhiteAt objs id = false) :
    sl.color = .black := by
  rw [isWhiteAt_of_some hj] at hw
  cases hc : sl.color with
  | white => rw [hc] at hw; simp at hw
  | black => rfl

theorem length_paintBlackAt (objs : List Slot) (id : Nat) :
    (paintBlackAt objs id).length = objs.length := by
  cases hj : objs.get? id with
  | none => rw [paintBlackAt_of_none hj]
  | some sl => rw [paintBlackAt_of_some hj]; exact List.length_set _ _ _

theorem get?_paintBlackAt_self {objs : List Slot} {id : Nat} {sl : Slot}
    (hj : objs.get? id = some sl) :
    (paintBlackAt objs id).get? id = some {sl with color := .black} := by
  rw [paintBlackAt_of_some hj]
  exact get?_set_self objs id _ sl hj

theorem get?_paintBlackAt_ne (objs : List Slot) (id j : Nat) (h : id ≠ j) :
    (paintBlackAt objs id).get? j = objs.get? j := by
  cases hj : objs.get? id with
  | none => rw [paintBlackAt_of_none hj]
  | some sl => rw [paintBlackAt_of_some hj]; exact get?_set_ne objs id j _ h

/-- Painting preserves every slot's tag, class pointer and references. -/
theorem slotRefs_paintBlackAt (objs : List Slot) (id j : Nat) :
    slotRefs (paintBlackAt objs id) j = slotRefs objs j := by
  by_cases h : id = j
  · subst h
    cases hj : objs.get? id with
    | none => rw [paintBlackAt_of_none hj]
    | some sl =>
      rw [slotRefs_of_some (get?_paintBlackAt_self hj), slotRefs_of_some hj]
  · unfold slotRefs
    rw [get?_paintBlackAt_ne objs id j h]

theorem isWhiteAt_paintBlackAt_self (objs : List Slot) (id : Nat) :
    isWhiteAt (paintBlackAt objs id) id = false := by
  cases hj : objs.get? id with
  | none => rw [paintBlackAt_of_none hj]; exact isWhiteAt_of_none hj
  | some sl =>
    rw [isWhiteAt_of_some (get?_paintBlackAt_self hj)]
    simp

/-! ### Marker equations and colour monotonicity -/

theorem markList_zero (objs : List Slot) (l : List (Option Nat)) :
    markList 0 objs l = objs := rfl

theorem markList_nil (f : Nat) (objs : List Slot) :
    markList f objs [] = objs := by
  cases f <;> rfl

theorem markList_cons_none (f : Nat) (objs : List Slot) (xs : List (Option Nat)) :
    markList (f + 1) objs (none :: xs) = markList f objs xs := rfl

theorem markList_cons_some (f : Nat) (objs : List Slot) (id : Nat)
    (xs : List (Option Nat)) :
    markList (f + 1) objs (some id :: xs) =
      if isWhiteAt objs id then
        markList f (markList f (paintBlackAt objs id) (slotRefs objs id)) xs
      else markList f objs xs := rfl

/-- The marker only ever repaints white slots black: the result differs from
the input only by blackening some white slots. -/
def ColorStep (objs t : List Slot) : Prop :=
  t.length = objs.length ∧
  ∀ id, t.get? id = objs.get? id ∨
    ∃ sl, objs.get? id = some sl ∧ sl.color = .white ∧
          t.get? id = some {sl with color := .black}

theorem ColorStep.refl (objs : List Slot) : ColorStep objs objs :=
  ⟨rfl, fun _ => Or.inl rfl⟩

theorem ColorStep.trans {a b c : List Slot} (h1 : ColorStep a b) (h2 : ColorStep b c) :
    ColorStep a c := by
  refine ⟨h2.1.trans h1.1, fun id => ?_⟩
  rcases h2.2 id with h | ⟨sl, hb, hw, hc⟩
  · rw [h]; exact h1.2 id
  · rcases h1.2 id with h | ⟨sl2, ha, hw2, hb2⟩
    · right; exact ⟨sl, h ▸ hb, hw, hc⟩
    · rw [hb2] at hb
      cases hb
      cases hw

theorem ColorStep.paint (objs : List Slot) (id : Nat) :
    ColorStep objs (paintBlackAt objs id) := by
  cases hj : objs.get? id with
  | none => rw [paintBlackAt_of_none hj]; exact ColorStep.refl objs
  | some sl =>
    refine ⟨length_paintBlackAt objs id, fun j => ?_⟩
    by_cases h : id = j
    · subst h
      cases hc : sl.color with
      | white =>
        right
        exact ⟨sl, hj, hc, get?_paintBlackAt_self hj⟩
      | black =>
        left
        rw [get?_paintBlackAt_self hj, hj]
        cases sl
        simp_all
    · left; exact get?_paintBlackAt_ne objs id j h

theorem ColorStep.slotRefs_eq {objs t : List Slot} (h : ColorStep objs t) (j : Nat) :
    slotRefs t j = slotRefs objs j := by
  unfold slotRefs
  rcases h.2 j with heq | ⟨sl, ha, _, hb⟩
  · rw [heq]
  · rw [ha, hb]

theorem ColorStep.tt_eq {objs t : List Slot} (h : ColorStep objs t) (j : Nat) :
    (t.get? j).map Slot.tt = (objs.get? j).map Slot.tt := by
  rcases h.2 j with heq | ⟨sl, ha, _, hb⟩
  · rw [heq]
  · rw [ha, hb]; rfl

theorem ColorStep.nonwhite_mono {objs t : List Slot} (h : ColorStep objs t) (j : Nat)
    (hj : isWhiteAt objs j = false) : isWhiteAt t j = false := by
  rcases h.2 j with heq | ⟨sl, ha, _, hb⟩
  · unfold isWhiteAt; rw [heq]; exact hj
  · rw [isWhiteAt_of_some hb]; simp

theorem ColorStep.black_mono {objs t : List Slot} (h : ColorStep objs t) (j : Nat)
    (hj : isBlackAt objs j = true) : isBlackAt t j = true := by
  rcases h.2 j with heq | ⟨sl, ha, _, hb⟩
  · unfold isBlackAt; rw [heq]; exact hj
  · rw [isBlackAt_of_some hb]; simp

/-- A slot black after a colour step was black before or white before. -/
theorem ColorStep.black_destruct {objs t : List Slot} (h : ColorStep objs t) (j : Nat)
    (hj : isBlackAt t j = true) :
    isBlackAt objs j = true ∨ isWhiteAt objs j = true := by
  rcases h.2 j with heq | ⟨sl, ha, hw, hb⟩
  · unfold isBlackAt at hj ⊢; rw [heq] at hj; exact Or.inl hj
  · right; rw [isWhiteAt_of_some ha]; simp [hw]

theorem colorStep_markList (f : Nat) :
    ∀ (objs : List Slot) (l : List (Option Nat)), ColorStep objs (markList f objs l) := by
  induction f with
  | zero => intro objs l; exact ColorStep.refl objs
  | succ f ih =>
    intro objs l
    match l with
    | [] => rw [markList_nil]; exact ColorStep.refl objs
    | none :: xs => rw [markList_cons_none]; exact ih objs xs
    | some id :: xs =>
      rw [markList_cons_some]
      by_cases hw : isWhiteAt objs id
      · rw [if_pos hw]
        exact ((ColorStep.paint objs id).trans (ih _ _)).trans (ih _ _)
      · rw [if_neg hw]
        exact ih objs xs

/-- Painting one white slot black spends exactly that slot's weight. -/
theorem whiteWeight_paintBlackAt {objs : List Slot} {id : Nat} {sl : Slot}
    (hj : objs.get? id = some sl) (hw : sl.color = .white) :
    whiteWeight (paintBlackAt objs id) + (slotRefs objs id).length + 1 = whiteWeight objs := by
  have hms := map_sum_set (fun s : Slot => if s.color = .white then s.refs.length + 2 else 0)
      objs id {sl with color := .black} sl hj
  have h1 : (if sl.color = .white then sl.refs.length + 2 else 0) = sl.refs.length + 2 := by
    rw [hw]; simp
  have h2 : (if ({sl with color := .black} : Slot).color = .white
      then ({sl with color := .black} : Slot).refs.length + 2 else 0) = 0 := by
    simp
  rw [paintBlackAt_of_some hj, slotRefs_of_some hj]
  unfold whiteWeight
  simp only [h1, h2] at hms
  simp only [List.length_cons]
  omega

theorem whiteWeight_paintBlackAt_le (objs : List Slot) (id : Nat) :
    whiteWeight (paintBlackAt objs id) ≤ whiteWeight objs := by
  cases hj : objs.get? id with
  | none => rw [paintBlackAt_of_none hj]
  | some sl =>
    cases hc : sl.color with
    | white =>
      have := whiteWeight_paintBlackAt hj hc
      omega
    | black =>
      have hms := map_sum_set (fun s : Slot => if s.color = .white then s.refs.length + 2 else 0)
          objs id {sl with color := .black} sl hj
      have h1 : (if sl.color = .white then sl.refs.length + 2 else 0) = 0 := by
        rw [hc]; simp
      have h2 : (if ({sl with color := .black} : Slot).color = .white
          then ({sl with color := .black} : Slot).refs.length + 2 else 0) = 0 := by
        simp
      rw [paintBlackAt_of_some hj]
      unfold whiteWeight
      simp only [h1, h2] at hms
      omega

theorem whiteWeight_markList_le (f : Nat) :
    ∀ (objs : List Slot) (l : List (Option Nat)),
      whiteWeight (markList f objs l) ≤ whiteWeight objs := by
  induction f with
  | zero => intro objs l; exact le_refl _
  | succ f ih =>
    intro objs l
    match l with
    | [] => rw [markList_nil]
    | none :: xs => rw [markList_cons_none]; exact ih objs xs
    | some id :: xs =>
      rw [markList_cons_some]
      by_cases hw : isWhiteAt objs id
      · rw [if_pos hw]
        calc whiteWeight (markList f (markList f (paintBlackAt objs id) (slotRefs objs id)) xs)
            ≤ whiteWeight (markList f (paintBlackAt objs id) (slotRefs objs id)) := ih _ _
          _ ≤ whiteWeight (paintBlackAt objs id) := ih _ _
          _ ≤ whiteWeight objs := whiteWeight_paintBlackAt_le objs id
      · rw [if_neg hw]
        exact ih objs xs

/-! ### Reachability, marker soundness and completeness -/

/-- Graph reachability along the outgoing references of the store (colours
are irrelevant to `Reach`; only `c`/`refs` matter). -/
inductive Reach (objs : List Slot) : Nat → Nat → Prop where
  | refl (a : Nat) : Reach objs a a
  | head {a b c : Nat} : some b ∈ slotRefs objs a → Reach objs b c → Reach objs a c

theorem reach_congr {o1 o2 : List Slot} (h : ∀ j, slotRefs o1 j = slotRefs o2 j) :
    ∀ a b, Reach o1 a b → Reach o2 a b := by
  intro a b hr
  induction hr with
  | refl a => exact Reach.refl a
  | head hmem _ ih => exact Reach.head (by rw [← h _]; assumption) ih

theorem isBlackAt_paintBlackAt_destruct {objs : List Slot} {x id : Nat}
    (h : isBlackAt (paintBlackAt objs x) id = true) :
    id = x ∨ isBlackAt objs id = true := by
  by_cases hxy : x = id
  · exact Or.inl hxy.symm
  · right
    unfold isBlackAt at h ⊢
    rwa [get?_paintBlackAt_ne objs x id hxy] at h

/-- Soundness of the marker: a slot black after marking was black before, or
is reachable from one of the pending roots. -/
theorem markList_sound (f : Nat) :
    ∀ (objs : List Slot) (l : List (Option Nat)) (id : Nat),
      isBlackAt (markList f objs l) id = true →
      isBlackAt objs id = true ∨ ∃ r, some r ∈ l ∧ Reach objs r id := by
  induction f with
  | zero => intro objs l id h; exact Or.inl h
  | succ f ih =>
    intro objs l id h
    match l with
    | [] => rw [markList_nil] at h; exact Or.inl h
    | none :: xs =>
      rw [markList_cons_none] at h
      rcases ih objs xs id h with hb | ⟨r, hr, hre⟩
      · exact Or.inl hb
      · exact Or.inr ⟨r, List.mem_cons_of_mem _ hr, hre⟩
    | some x :: xs =>
      rw [markList_cons_some] at h
      by_cases hw : isWhiteAt objs x
      · rw [if_pos hw] at h
        have hcs1 : ColorStep objs (paintBlackAt objs x) := ColorStep.paint objs x
        have hcs2 : ColorStep objs
            (markList f (paintBlackAt objs x) (slotRefs objs x)) :=
          hcs1.trans (colorStep_markList f _ _)
        rcases ih _ xs id h with hb | ⟨r, hr, hre⟩
        · -- black already after the descent into x
          rcases ih _ (slotRefs objs x) id hb with hb2 | ⟨r, hr, hre⟩
          · rcases isBlackAt_paintBlackAt_destruct hb2 with heq | hb3
            · exact Or.inr ⟨x, List.mem_cons_self _ _, heq ▸ Reach.refl id⟩
            · exact Or.inl hb3
          · -- reachable from a child of x, hence from x
            have hre2 : Reach objs r id :=
              reach_congr (fun j => hcs1.slotRefs_eq j) r id hre
            exact Or.inr ⟨x, List.mem_cons_self _ _, Reach.head hr hre2⟩
        · have hre2 : Reach objs r id :=
            reach_congr (fun j => hcs2.slotRefs_eq j) r id hre
          exact Or.inr ⟨r, List.mem_cons_of_mem _ hr, hre2⟩
      · rw [if_neg hw] at h
        rcases ih objs xs id h with hb | ⟨r, hr, hre⟩
        · exact Or.inl hb
        · exact Or.inr ⟨r, List.mem_cons_of_mem _ hr, hre⟩

/-- Completeness of the marker, with enough fuel: every pending root ends
non-white, and the blacks stay closed (every reference of a black slot is
non-white up to the outer pending list). -/
theorem markList_complete (f : Nat) :
    ∀ (objs : List Slot) (l pend : List (Option Nat)),
      whiteWeight objs + l.length + 1 ≤ f →
      (∀ b, isBlackAt objs b = true → ∀ r, some r ∈ slotRefs objs b →
        isWhiteAt objs r = false ∨ some r ∈ l ∨ some r ∈ pend) →
      (∀ x, some x ∈ l → isWhiteAt (markList f objs l) x = false) ∧
      (∀ b, isBlackAt (markList f objs l) b = true →
        ∀ r, some r ∈ slotRefs (markList f objs l) b →
          isWhiteAt (markList f objs l) r = false ∨ some r ∈ pend) := by
  induction f with
  | zero => intro objs l pend hfuel _; omega
  | succ f ih =>
    intro objs l pend hfuel hinv
    match l with
    | [] =>
      rw [markList_nil]
      refine ⟨fun x hx => absurd hx (by simp), fun b hb r hr => ?_⟩
      rcases hinv b hb r hr with h | h | h
      · exact Or.inl h
      · cases h
      · exact Or.inr h
    | none :: xs =>
      rw [markList_cons_none]
      have hinv2 : ∀ b, isBlackAt objs b = true → ∀ r, some r ∈ slotRefs objs b →
          isWhiteAt objs r = false ∨ some r ∈ xs ∨ some r ∈ pend := by
        intro b hb r hr
        rcases hinv b hb r hr with h | h | h
        · exact Or.inl h
        · rcases List.mem_cons.mp h with hc | hc
          · cases hc
          · exact Or.inr (Or.inl hc)
        · exact Or.inr (Or.inr h)
      have hih := ih objs xs pend (by simp at hfuel ⊢; omega) hinv2
      refine ⟨fun x hx => ?_, hih.2⟩
      rcases List.mem_cons.mp hx with hc | hc
      · cases hc
      · exact hih.1 x hc
    | some x :: xs =>
      rw [markList_cons_some]
      by_cases hw : isWhiteAt objs x
      · rw [if_pos hw]
        -- the slot exists and is white
        have hjx : ∃ slx, objs.get? x = some slx ∧ slx.color = .white := by
          cases hj : objs.get? x with
          | none => rw [isWhiteAt_of_none hj] at hw; cases hw
          | some slx =>
            rw [isWhiteAt_of_some hj] at hw
            exact ⟨slx, rfl, by simpa using hw⟩
        obtain ⟨slx, hjx, hwc⟩ := hjx
        have hweq := whiteWeight_paintBlackAt hjx hwc
        have hcs1 : ColorStep objs (paintBlackAt objs x) := ColorStep.paint objs x
        -- descend into the children of x
        have hih1 := ih (paintBlackAt objs x) (slotRefs objs x) (xs ++ pend)
          (by simp only [List.length_cons] at hfuel; omega)
          (by
            intro b hb r hr
            rw [slotRefs_paintBlackAt] at hr
            rcases isBlackAt_paintBlackAt_destruct hb with heq | hb2
            · subst heq
              exact Or.inr (Or.inl hr)
            · rcases hinv b hb2 r hr with h | h | h
              · exact Or.inl (hcs1.nonwhite_mono r h)
              · rcases List.mem_cons.mp h with hc | hc
                · cases hc
                  exact Or.inl (isWhiteAt_paintBlackAt_self objs x)
                · exact Or.inr (Or.inr (List.mem_append_left pend hc))
              · exact Or.inr (Or.inr (List.mem_append_right xs h)))
        -- then continue with the tail
        have hwwinner :=
          whiteWeight_markList_le f (paintBlackAt objs x) (slotRefs objs x)
        have hih2 := ih (markList f (paintBlackAt objs x) (slotRefs objs x)) xs pend
          (by simp only [List.length_cons] at hfuel; omega)
          (by
            intro b hb r hr
            rcases hih1.2 b hb r hr with h | h
            · exact Or.inl h
            · rcases List.mem_append.mp h with hc | hc
              · exact Or.inr (Or.inl hc)
              · exact Or.inr (Or.inr hc))
        refine ⟨fun y hy => ?_, hih2.2⟩
        rcases List.mem_cons.mp hy with hc | hc
        · cases hc
          -- y = x: painted black, and the marker never whitens
          have h1 : isWhiteAt (paintBlackAt objs x) x = false :=
            isWhiteAt_paintBlackAt_self objs x
          have h2 := (colorStep_markList f (paintBlackAt objs x)
            (slotRefs objs x)).nonwhite_mono x h1
          exact (colorStep_markList f _ xs).nonwhite_mono x h2
        · exact hih2.1 y hc
      · rw [if_neg hw]
        have hwf : isWhiteAt objs x = false := by
          cases hv : isWhiteAt objs x
          · rfl
          · exact absurd hv hw
        have hinv2 : ∀ b, isBlackAt objs b = true → ∀ r, some r ∈ slotRefs objs b →
            isWhiteAt objs r = false ∨ some r ∈ xs ∨ some r ∈ pend := by
          intro b hb r hr
          rcases hinv b hb r hr with h | h | h
          · exact Or.inl h
          · rcases List.mem_cons.mp h with hc | hc
            · cases hc; exact Or.inl hwf
            · exact Or.inr (Or.inl hc)
          · exact Or.inr (Or.inr h)
        have hih := ih objs xs pend (by simp at hfuel ⊢; omega) hinv2
        refine ⟨fun y hy => ?_, hih.2⟩
        rcases List.mem_cons.mp hy with hc | hc
        · cases hc
          exact (colorStep_markList f objs xs).nonwhite_mono x hwf
        · exact hih.1 y hc

/-- From a closed black set, everything reachable from a non-white slot is
non-white. -/
theorem nonwhite_of_reach (objs : List Slot)
    (hclosed : ∀ b, isBlackAt objs b = true → ∀ r, some r ∈ slotRefs objs b →
        isWhiteAt objs r = false) :
    ∀ a c, Reach objs a c → isWhiteAt objs a = false → isWhiteAt objs c = false := by
  intro a c h
  induction h with
  | refl a => exact id
  | @head a b c hmem _ ih =>
    intro ha
    apply ih
    cases hj : objs.get? a with
    | none => rw [slotRefs_of_none hj] at hmem; cases hmem
    | some sl =>
      have hblack : isBlackAt objs a = true := by
        rw [isBlackAt_of_some hj]
        simp [black_of_nonwhite hj ha]
      exact hclosed a hblack b hmem

/-! ### Mark-phase wrappers -/

theorem mark_objs_eq (st : State) :
    (mark st).objs = markList (markFuel st) st.objs (rootList st) := rfl

theorem mark_colorStep (st : State) : ColorStep st.objs (mark st).objs :=
  colorStep_markList _ _ _

/-- Marking from roots paints black only slots reachable from the root
list. -/
theorem mark_sound (st : State) (id : Nat)
    (h : isBlackAt (mark st).objs id = true) :
    isBlackAt st.objs id = true ∨ ∃ r, some r ∈ rootList st ∧ Reach st.objs r id :=
  markList_sound _ _ _ _ h

/-- Marking from an all-non-black store leaves every root non-white, and the
resulting blacks are closed under references. -/
theorem mark_complete (st : State) (hnb : ∀ b, isBlackAt st.objs b = false) :
    (∀ x, some x ∈ rootList st → isWhiteAt (mark st).objs x = false) ∧
    (∀ b, isBlackAt (mark st).objs b = true →
      ∀ r, some r ∈ slotRefs (mark st).objs b →
        isWhiteAt (mark st).objs r = false) := by
  have h := markList_complete (markFuel st) st.objs (rootList st) []
    (by unfold markFuel; omega)
    (fun b hb => absurd hb (by rw [hnb b]; simp))
  refine ⟨h.1, fun b hb r hr => ?_⟩
  rcases h.2 b hb r hr with h2 | h2
  · exact h2
  · cases h2

/-- Everything reachable from the root list is non-white after marking an
all-non-black store. -/
theorem mark_reach_nonwhite (st : State) (hnb : ∀ b, isBlackAt st.objs b = false)
    (r x : Nat) (hr : some r ∈ rootList st) (hx : Reach st.objs r x) :
    isWhiteAt (mark st).objs x = false := by
  have hc := mark_complete st hnb
  have hre : Reach (mark st).objs r x :=
    reach_congr (fun j => ((mark_colorStep st).slotRefs_eq j).symm) r x hx
  exact nonwhite_of_reach _ hc.2 r x hre (hc.1 r hr)

/-! ### The sweep slot loop -/

/-- Does the slot loop free this slot (white and live)? -/
def freedPred (objs : List Slot) (j : Nat) : Bool :=
  match objs.get? j with
  | some sl => decide (sl.color = .white ∧ sl.tt ≠ .FREE)
  | none => false

/-- Does this slot clear `dead_slot` (a surviving, non-white slot)? -/
def survPred (objs : List Slot) (j : Nat) : Bool :=
  match objs.get? j with
  | some sl => decide (sl.color ≠ .white)
  | none => false

/-- The value a slot holds after its page's slot loop has processed it. -/
def sweptSlot (sl : Slot) : Slot :=
  if sl.color = .white then (if sl.tt ≠ .FREE then obj_free sl else sl)
  else {sl with color := .white}

theorem freedPred_of_some {objs : List Slot} {j : Nat} {sl : Slot}
    (hj : objs.get? j = some sl) :
    freedPred objs j = decide (sl.color = .white ∧ sl.tt ≠ .FREE) := by
  unfold freedPred
  rw [hj]

theorem freedPred_of_none {objs : List Slot} {j : Nat} (hj : objs.get? j = none) :
    freedPred objs j = false := by
  unfold freedPred
  rw [hj]

theorem survPred_of_some {objs : List Slot} {j : Nat} {sl : Slot}
    (hj : objs.get? j = some sl) :
    survPred objs j = decide (sl.color ≠ .white) := by
  unfold survPred
  rw [hj]

theorem survPred_of_none {objs : List Slot} {j : Nat} (hj : objs.get? j = none) :
    survPred objs j = false := by
  unfold survPred
  rw [hj]

/-- Full characterization of one slot-loop iteration. -/
theorem sweepSlot_spec (acc : SweepAcc) (j : Nat) :
    (sweepSlot acc j).objs.length = acc.objs.length ∧
    (∀ k, k ≠ j → (sweepSlot acc j).objs.get? k = acc.objs.get? k) ∧
    (∀ sl, acc.objs.get? j = some sl →
        (sweepSlot acc j).objs.get? j = some (sweptSlot sl)) ∧
    (sweepSlot acc j).freed = acc.freed + (if freedPred acc.objs j then 1 else 0) ∧
    (sweepSlot acc j).dead_slot = (acc.dead_slot && !survPred acc.objs j) ∧
    (sweepSlot acc j).freelist =
      (if freedPred acc.objs j then j :: acc.freelist else acc.freelist) := by
  cases hj : acc.objs.get? j with
  | none =>
    have he : sweepSlot acc j = acc := by unfold sweepSlot; rw [hj]
    rw [he, freedPred_of_none hj, survPred_of_none hj]
    refine ⟨rfl, fun _ _ => rfl, ?_, by simp, by simp, by simp⟩
    intro sl h
    exact absurd h (by simp)
  | some sl =>
    by_cases hw : sl.color = .white
    · by_cases ht : sl.tt = .FREE
      · have he : sweepSlot acc j = acc := by
          unfold sweepSlot
          rw [hj]
          simp [hw, ht]
        have hf : freedPred acc.objs j = false := by
          rw [freedPred_of_some hj]
          simp [ht]
        have hs : survPred acc.objs j = false := by
          rw [survPred_of_some hj]
          simp [hw]
        have hsw : sweptSlot sl = sl := by
          unfold sweptSlot
          simp [hw, ht]
        rw [hf, hs]
        refine ⟨by rw [he], fun k _ => by rw [he], ?_, by rw [he]; simp,
          by rw [he]; simp, by rw [he]; simp⟩
        intro sl2 hsl2
        injection hsl2 with hss
        subst hss
        rw [he, hsw]
        exact hj
      · have he : sweepSlot acc j =
            ⟨acc.objs.set j (obj_free sl), j :: acc.freelist, acc.freed + 1,
             acc.dead_slot⟩ := by
          unfold sweepSlot
          rw [hj]
          simp [hw, ht]
        have hf : freedPred acc.objs j = true := by
          rw [freedPred_of_some hj]
          simp [hw, ht]
        have hs : survPred acc.objs j = false := by
          rw [survPred_of_some hj]
          simp [hw]
        have hsw : sweptSlot sl = obj_free sl := by
          unfold sweptSlot
          simp [hw, ht]
        rw [hf, hs]
        refine ⟨by rw [he]; simp, fun k hk => ?_, ?_, by rw [he]; simp,
          by rw [he]; simp, by rw [he]; simp⟩
        · rw [he]
          exact get?_set_ne _ j k _ (fun hc => hk hc.symm)
        · intro sl2 hsl2
          injection hsl2 with hss
          subst hss
          rw [he, hsw]
          exact get?_set_self _ j _ _ hj
    · have he : sweepSlot acc j =
          ⟨acc.objs.set j {sl with color := .white}, acc.freelist, acc.freed, false⟩ := by
        unfold sweepSlot
        rw [hj]
        simp [hw]
      have hf : freedPred acc.objs j = false := by
        rw [freedPred_of_some hj]
        simp [hw]
      have hs : survPred acc.objs j = true := by
        rw [survPred_of_some hj]
        simp [hw]
      have hsw : sweptSlot sl = {sl with color := .white} := by
        unfold sweptSlot
        simp [hw]
      rw [hf, hs]
      refine ⟨by rw [he]; simp, fun k hk => ?_, ?_, by rw [he]; simp,
        by rw [he]; simp, by rw [he]; simp⟩
      · rw [he]
        exact get?_set_ne _ j k _ (fun hc => hk hc.symm)
      · intro sl2 hsl2
        injection hsl2 with hss
        subst hss
        rw [he, hsw]
        exact get?_set_self _ j _ _ hj

/-- Characterization of the whole slot loop of one page, as a fold over the
page's slot ids (which are distinct).  Everything is expressed against the
store as it was when the loop started. -/
theorem sweepSlot_fold_spec :
    ∀ (ids : List Nat) (acc : SweepAcc), ids.Nodup →
      (ids.foldl sweepSlot acc).objs.length = acc.objs.length ∧
      (∀ j, j ∉ ids → (ids.foldl sweepSlot acc).objs.get? j = acc.objs.get? j) ∧
      (∀ j sl, j ∈ ids → acc.objs.get? j = some sl →
          (ids.foldl sweepSlot acc).objs.get? j = some (sweptSlot sl)) ∧
      (ids.foldl sweepSlot acc).freed = acc.freed + ids.countP (freedPred acc.objs) ∧
      (ids.foldl sweepSlot acc).dead_slot
        = (acc.dead_slot && ids.all (fun j => !survPred acc.objs j)) ∧
      (ids.foldl sweepSlot acc).freelist
        = (ids.filter (freedPred acc.objs)).reverse ++ acc.freelist := by
  intro ids
  induction ids with
  | nil =>
    intro acc _
    exact ⟨rfl, fun _ _ => rfl, fun j sl h => absurd h (by simp), by simp, by simp,
      by simp⟩
  | cons x rest ih =>
    intro acc hnd
    have hx : x ∉ rest := (List.nodup_cons.mp hnd).1
    have hndr : rest.Nodup := (List.nodup_cons.mp hnd).2
    have hs := sweepSlot_spec acc x
    have hgetne : ∀ k, k ≠ x → (sweepSlot acc x).objs.get? k = acc.objs.get? k := hs.2.1
    have hfp : ∀ k ∈ rest, freedPred (sweepSlot acc x).objs k = freedPred acc.objs k := by
      intro k hk
      unfold freedPred
      rw [hgetne k (fun hc => hx (hc ▸ hk))]
    have hsp : ∀ k ∈ rest, survPred (sweepSlot acc x).objs k = survPred acc.objs k := by
      intro k hk
      unfold survPred
      rw [hgetne k (fun hc => hx (hc ▸ hk))]
    have hih := ih (sweepSlot acc x) hndr
    have hfold : (x :: rest).foldl sweepSlot acc = rest.foldl sweepSlot (sweepSlot acc x) :=
      rfl
    rw [hfold]
    refine ⟨hih.1.trans hs.1, ?_, ?_, ?_, ?_, ?_⟩
    · intro j hj
      have hj1 : j ≠ x := fun hc => hj (hc ▸ List.mem_cons_self x rest)
      have hj2 : j ∉ rest := fun hc => hj (List.mem_cons_of_mem x hc)
      exact (hih.2.1 j hj2).trans (hgetne j hj1)
    · intro j sl hjmem hsl
      rcases List.mem_cons.mp hjmem with hc | hc
      · subst hc
        rw [hih.2.1 j hx]
        exact hs.2.2.1 sl hsl
      · refine hih.2.2.1 j sl hc ?_
        rw [hgetne j (fun h2 => hx (h2 ▸ hc))]
        exact hsl
    · rw [hih.2.2.2.1, hs.2.2.2.1,
        countP_congr_list _ _ rest hfp, List.countP_cons]
      by_cases hpx : freedPred acc.objs x <;> simp [hpx] <;> omega
    · have hall : rest.all (fun j => !survPred (sweepSlot acc x).objs j)
          = rest.all (fun j => !survPred acc.objs j) :=
        all_congr_list _ _ rest (fun k hk => by rw [hsp k hk])
      rw [hih.2.2.2.2.1, hs.2.2.2.2.1, hall, List.all_cons, Bool.and_assoc]
    · rw [hih.2.2.2.2.2, hs.2.2.2.2.2,
        filter_congr_list _ _ rest hfp, List.filter_cons]
      by_cases hpx : freedPred acc.objs x <;>
        simp [hpx, List.reverse_cons, List.append_assoc]

/-- Number of slots the sweep of a page frees (white and live at loop
start). -/
def pageFreed (cfg : Cfg) (st : State) (pid : Nat) : Nat :=
  (pageIds cfg (pageGet st pid)).countP (freedPred st.objs)

/-- Whether `dead_slot` survives the page's slot loop (no surviving non-white
slot was seen). -/
def pageDead (cfg : Cfg) (st : State) (pid : Nat) : Bool :=
  (pageIds cfg (pageGet st pid)).all (fun j => !survPred st.objs j)

/-- Full characterization of `sweep_page` against the state at entry. -/
theorem sweep_page_spec (cfg : Cfg) (st : State) (pid : Nat)
    (hnd : (pageIds cfg (pageGet st pid)).Nodup) :
    (sweep_page cfg st pid).objs.length = st.objs.length ∧
    (∀ j, j ∉ pageIds cfg (pageGet st pid) →
        (sweep_page cfg st pid).objs.get? j = st.objs.get? j) ∧
    (∀ j sl, j ∈ pageIds cfg (pageGet st pid) → st.objs.get? j = some sl →
        (sweep_page cfg st pid).objs.get? j = some (sweptSlot sl)) ∧
    (sweep_page cfg st pid).live = st.live - pageFreed cfg st pid ∧
    (sweep_page cfg st pid).pages = st.pages.set pid
      {pageGet st pid with freelist :=
        ((pageIds cfg (pageGet st pid)).filter (freedPred st.objs)).reverse
          ++ (pageGet st pid).freelist} ∧
    ((pageDead cfg st pid = true ∧ pageFreed cfg st pid < cfg.heapPageSize) →
        (sweep_page cfg st pid).heaps = st.heaps.erase pid ∧
        (sweep_page cfg st pid).free_heaps = st.free_heaps.erase pid) ∧
    (¬(pageDead cfg st pid = true ∧ pageFreed cfg st pid < cfg.heapPageSize) →
        (sweep_page cfg st pid).heaps = st.heaps ∧
        (sweep_page cfg st pid).free_heaps =
          (if (pageGet st pid).freelist.isEmpty ∧ 0 < pageFreed cfg st pid
           then pid :: st.free_heaps else st.free_heaps)) := by
  have hfs := sweepSlot_fold_spec (pageIds cfg (pageGet st pid))
      ⟨st.objs, (pageGet st pid).freelist, 0, true⟩ hnd
  set acc := (pageIds cfg (pageGet st pid)).foldl sweepSlot
      ⟨st.objs, (pageGet st pid).freelist, 0, true⟩ with hacc
  have hfreed : acc.freed = pageFreed cfg st pid := by
    rw [hfs.2.2.2.1]
    simp [pageFreed]
  have hdead : acc.dead_slot = pageDead cfg st pid := by
    rw [hfs.2.2.2.2.1]
    simp [pageDead]
  have hflst : acc.freelist =
      ((pageIds cfg (pageGet st pid)).filter (freedPred st.objs)).reverse
        ++ (pageGet st pid).freelist := hfs.2.2.2.2.2
  have hsp : sweep_page cfg st pid =
      (let st1 := setPage {st with objs := acc.objs} pid
          {pageGet st pid with freelist := acc.freelist}
       let st2 := if acc.dead_slot ∧ acc.freed < cfg.heapPageSize
                  then unlink_free_heap_page (unlink_heap_page st1 pid) pid
                  else if (pageGet st pid).freelist.isEmpty ∧ 0 < acc.freed
                       then link_free_heap_page st1 pid else st1
       {st2 with live := st2.live - acc.freed,
                 gc_live_after_mark := st2.gc_live_after_mark - acc.freed}) := rfl
  have hobjs : (sweep_page cfg st pid).objs = acc.objs := by
    rw [hsp]
    dsimp only
    split
    · rfl
    · split <;> rfl
  have hlive : (sweep_page cfg st pid).live = st.live - acc.freed := by
    rw [hsp]
    dsimp only
    split
    · rfl
    · split <;> rfl
  have hpages : (sweep_page cfg st pid).pages
      = st.pages.set pid {pageGet st pid with freelist := acc.freelist} := by
    rw [hsp]
    dsimp only
    split
    · rfl
    · split <;> rfl
  refine ⟨hobjs ▸ hfs.1, ?_, ?_, by rw [hlive, hfreed], by rw [hpages, hflst], ?_, ?_⟩
  · intro j hj
    rw [hobjs]
    exact hfs.2.1 j hj
  · intro j sl hj hsl
    rw [hobjs]
    exact hfs.2.2.1 j sl hj hsl
  · intro hcond
    have hcond2 : (acc.dead_slot ∧ acc.freed < cfg.heapPageSize) := by
      rw [hdead, hfreed]
      exact hcond
    constructor
    · rw [hsp]
      dsimp only
      rw [if_pos hcond2]
      rfl
    · rw [hsp]
      dsimp only
      rw [if_pos hcond2]
      rfl
  · intro hcond
    have hcond2 : ¬(acc.dead_slot ∧ acc.freed < cfg.heapPageSize) := by
      rw [hdead, hfreed]
      exact hcond
    by_cases hfull : ((pageGet st pid).freelist.isEmpty ∧ 0 < pageFreed cfg st pid)
    · have hfull2 : ((pageGet st pid).freelist.isEmpty ∧ 0 < acc.freed) := by
        rw [hfreed]
        exact hfull
      constructor
      · rw [hsp]
        dsimp only
        rw [if_neg hcond2, if_pos hfull2]
        rfl
      · rw [hsp]
        dsimp only
        rw [if_neg hcond2, if_pos hfull2, if_pos hfull]
        rfl
    · have hfull2 : ¬((pageGet st pid).freelist.isEmpty ∧ 0 < acc.freed) := by
        rw [hfreed]
        exact hfull
      constructor
      · rw [hsp]
        dsimp only
        rw [if_neg hcond2, if_neg hfull2]
        rfl
      · rw [hsp]
        dsimp only
        rw [if_neg hcond2, if_neg hfull2, if_neg hfull]
        rfl

/-! ### Monotone facts about sweeping -/

theorem obj_free_color (sl : Slot) : (obj_free sl).color = sl.color := by
  unfold obj_free
  split <;> rfl

/-- Tags for which `obj_free` reaches the default arm and clears the slot
(everything except the immediate tags, which "cannot happen" on the heap per
the code's own comment, and `FLOAT` without word boxing). -/
def heapTag (t : Vtype) : Bool :=
  match t with
  | .TRUE | .FIXNUM | .SYMBOL | .FLOAT => false
  | _ => true

theorem obj_free_tt {sl : Slot} (h : heapTag sl.tt = true) : (obj_free sl).tt = .FREE := by
  obtain ⟨tt, col, c, refs⟩ := sl
  cases tt <;> first | rfl | simp [heapTag] at h

theorem sweptSlot_color (sl : Slot) : (sweptSlot sl).color = .white := by
  unfold sweptSlot
  by_cases hw : sl.color = .white
  · rw [if_pos hw]
    split
    · rw [obj_free_color]; exact hw
    · exact hw
  · rw [if_neg hw]

/-- A `FREE` slot swept again stays `FREE`. -/
theorem sweptSlot_tt_free {sl : Slot} (h : sl.tt = .FREE) : (sweptSlot sl).tt = .FREE := by
  unfold sweptSlot
  by_cases hw : sl.color = .white
  · rw [if_pos hw]
    simp [h]
  · rw [if_neg hw]
    exact h

/-- One slot-loop iteration does not change other slots. -/
theorem sweepSlot_get?_ne (acc : SweepAcc) (x j : Nat) (h : j ≠ x) :
    (sweepSlot acc x).objs.get? j = acc.objs.get? j :=
  (sweepSlot_spec acc x).2.1 j h

/-- One slot-loop iteration leaves its slot (when it exists) white. -/
theorem sweepSlot_white_after (acc : SweepAcc) (x : Nat) (sl' : Slot)
    (h : (sweepSlot acc x).objs.get? x = some sl') : sl'.color = .white := by
  cases hj : acc.objs.get? x with
  | none =>
    have he : sweepSlot acc x = acc := by unfold sweepSlot; rw [hj]
    rw [he] at h
    rw [hj] at h
    cases h
  | some sl =>
    have := (sweepSlot_spec acc x).2.2.1 sl hj
    rw [this] at h
    injection h with h2
    rw [← h2]
    exact sweptSlot_color sl

/-- One slot-loop iteration preserves white slots (they are skipped or freed,
never repainted black). -/
theorem sweepSlot_preserves_white (acc : SweepAcc) (x j : Nat) (sl : Slot)
    (hj : acc.objs.get? j = some sl) (hw : sl.color = .white) :
    ∃ sl', (sweepSlot acc x).objs.get? j = some sl' ∧ sl'.color = .white := by
  by_cases hx : j = x
  · subst hx
    refine ⟨sweptSlot sl, (sweepSlot_spec acc j).2.2.1 sl hj, sweptSlot_color sl⟩
  · exact ⟨sl, (sweepSlot_get?_ne acc x j hx).trans hj, hw⟩

/-- One slot-loop iteration preserves `FREE` slots. -/
theorem sweepSlot_preserves_free (acc : SweepAcc) (x j : Nat) (sl : Slot)
    (hj : acc.objs.get? j = some sl) (ht : sl.tt = .FREE) :
    ∃ sl', (sweepSlot acc x).objs.get? j = some sl' ∧ sl'.tt = .FREE := by
  by_cases hx : j = x
  · subst hx
    exact ⟨sweptSlot sl, (sweepSlot_spec acc j).2.2.1 sl hj, sweptSlot_tt_free ht⟩
  · exact ⟨sl, (sweepSlot_get?_ne acc x j hx).trans hj, ht⟩

/-- Slot-loop iterations only write their own slot (no distinctness
needed). -/
theorem fold_get?_not_mem :
    ∀ (ids : List Nat) (acc : SweepAcc) (j : Nat), j ∉ ids →
      (ids.foldl sweepSlot acc).objs.get? j = acc.objs.get? j := by
  intro ids
  induction ids with
  | nil => intro acc j _; rfl
  | cons x rest ih =>
    intro acc j hj
    have h1 : j ≠ x := fun hc => hj (hc ▸ List.mem_cons_self x rest)
    have h2 : j ∉ rest := fun hc => hj (List.mem_cons_of_mem x hc)
    exact (ih (sweepSlot acc x) j h2).trans (sweepSlot_get?_ne acc x j h1)

theorem fold_preserves_white :
    ∀ (ids : List Nat) (acc : SweepAcc) (j : Nat) (sl : Slot),
      acc.objs.get? j = some sl → sl.color = .white →
      ∃ sl', (ids.foldl sweepSlot acc).objs.get? j = some sl' ∧ sl'.color = .white := by
  intro ids
  induction ids with
  | nil => intro acc j sl hj hw; exact ⟨sl, hj, hw⟩
  | cons x rest ih =>
    intro acc j sl hj hw
    obtain ⟨sl1, h1, hw1⟩ := sweepSlot_preserves_white acc x j sl hj hw
    exact ih (sweepSlot acc x) j sl1 h1 hw1

theorem fold_preserves_free :
    ∀ (ids : List Nat) (acc : SweepAcc) (j : Nat) (sl : Slot),
      acc.objs.get? j = some sl → sl.tt = .FREE →
      ∃ sl', (ids.foldl sweepSlot acc).objs.get? j = some sl' ∧ sl'.tt = .FREE := by
  intro ids
  induction ids with
  | nil => intro acc j sl hj ht; exact ⟨sl, hj, ht⟩
  | cons x rest ih =>
    intro acc j sl hj ht
    obtain ⟨sl1, h1, ht1⟩ := sweepSlot_preserves_free acc x j sl hj ht
    exact ih (sweepSlot acc x) j sl1 h1 ht1

/-- Every slot of the processed page that exists ends white. -/
theorem fold_page_white :
    ∀ (ids : List Nat) (acc : SweepAcc) (j : Nat), j ∈ ids →
      ∀ sl', (ids.foldl sweepSlot acc).objs.get? j = some sl' → sl'.color = .white := by
  intro ids
  induction ids with
  | nil => intro acc j hj; cases hj
  | cons x rest ih =>
    intro acc j hj sl' hget
    by_cases hjr : j ∈ rest
    · exact ih (sweepSlot acc x) j hjr sl' hget
    · have hjx : j = x := by
        rcases List.mem_cons.mp hj with h | h
        · exact h
        · exact absurd h hjr
      subst hjx
      have hget2 : (rest.foldl sweepSlot (sweepSlot acc j)).objs.get? j = some sl' := hget
      cases h1 : (sweepSlot acc j).objs.get? j with
      | none =>
        rw [fold_get?_not_mem rest (sweepSlot acc j) j hjr, h1] at hget2
        cases hget2
      | some sl1 =>
        have hw1 : sl1.color = .white := sweepSlot_white_after acc j sl1 h1
        obtain ⟨sl2, h2, hw2⟩ := fold_preserves_white rest (sweepSlot acc j) j sl1 h1 hw1
        rw [h2] at hget2
        injection hget2 with h3
        rw [← h3]
        exact hw2

/-- A white live slot of the processed page (with a real heap tag) is freed:
its tag ends `FREE`. -/
theorem fold_page_frees :
    ∀ (ids : List Nat) (acc : SweepAcc) (j : Nat) (sl : Slot), j ∈ ids →
      acc.objs.get? j = some sl → sl.color = .white → heapTag sl.tt = true →
      ∃ sl', (ids.foldl sweepSlot acc).objs.get? j = some sl' ∧ sl'.tt = .FREE := by
  intro ids
  induction ids with
  | nil => intro acc j sl hj; cases hj
  | cons x rest ih =>
    intro acc j sl hj hget hw htag
    by_cases hjx : j = x
    · subst hjx
      by_cases ht : sl.tt = .FREE
      · obtain ⟨sl1, h1, ht1⟩ := sweepSlot_preserves_free acc j j sl hget ht
        exact fold_preserves_free rest (sweepSlot acc j) j sl1 h1 ht1
      · have h1 : (sweepSlot acc j).objs.get? j = some (sweptSlot sl) :=
          (sweepSlot_spec acc j).2.2.1 sl hget
        have ht1 : (sweptSlot sl).tt = .FREE := by
          unfold sweptSlot
          rw [if_pos hw, if_pos ht]
          exact obj_free_tt htag
        exact fold_preserves_free rest (sweepSlot acc j) j (sweptSlot sl) h1 ht1
    · have hjr : j ∈ rest := by
        rcases List.mem_cons.mp hj with h | h
        · exact absurd h hjx
        · exact h
      refine ih (sweepSlot acc x) j sl hjr ?_ hw htag
      rw [sweepSlot_get?_ne acc x j hjx]
      exact hget

/-! ### `sweep_page` and `sweep_go` projections -/

theorem sweep_page_objs (cfg : Cfg) (st : State) (pid : Nat) :
    (sweep_page cfg st pid).objs =
      ((pageIds cfg (pageGet st pid)).foldl sweepSlot
        ⟨st.objs, (pageGet st pid).freelist, 0, true⟩).objs := by
  unfold sweep_page
  dsimp only
  split
  · rfl
  · split <;> rfl

theorem sweep_page_heaps_cases (cfg : Cfg) (st : State) (pid : Nat) :
    (sweep_page cfg st pid).heaps = st.heaps ∨
    (sweep_page cfg st pid).heaps = st.heaps.erase pid := by
  unfold sweep_page
  dsimp only
  split
  · right; rfl
  · split
    · left; rfl
    · left; rfl

theorem sweep_page_pages_eq (cfg : Cfg) (st : State) (pid : Nat) :
    ∃ fl, (sweep_page cfg st pid).pages
      = st.pages.set pid {pageGet st pid with freelist := fl} := by
  refine ⟨((pageIds cfg (pageGet st pid)).foldl sweepSlot
    ⟨st.objs, (pageGet st pid).freelist, 0, true⟩).freelist, ?_⟩
  unfold sweep_page
  dsimp only
  split
  · rfl
  · split <;> rfl

theorem set_oob {α : Type} :
    ∀ (l : List α) (i : Nat) (a : α), l.length ≤ i → l.set i a = l := by
  intro l
  induction l with
  | nil => intro i a _; rfl
  | cons x xs ih =>
    intro i a h
    cases i with
    | zero => simp at h
    | succ n =>
      show x :: xs.set n a = x :: xs
      rw [ih n a (by simpa using h)]

theorem pageGet_eq_get? (st : State) (pid : Nat) :
    pageGet st pid = (st.pages.get? pid).getD ⟨0, []⟩ := by
  unfold pageGet
  rw [List.getD_eq_getElem?_getD, ← List.get?_eq_getElem?]

theorem pageGet_pages_congr {st1 st2 : State} (h : st1.pages = st2.pages) (pid : Nat) :
    pageGet st1 pid = pageGet st2 pid := by
  unfold pageGet
  rw [h]

/-- The start of any page is unchanged by `sweep_page` (only a free list is
rewritten). -/
theorem sweep_page_start (cfg : Cfg) (st : State) (pid pid2 : Nat) :
    (pageGet (sweep_page cfg st pid) pid2).start = (pageGet st pid2).start := by
  obtain ⟨fl, hpg⟩ := sweep_page_pages_eq cfg st pid
  have h1 : pageGet (sweep_page cfg st pid) pid2 =
      ((st.pages.set pid {pageGet st pid with freelist := fl}).get? pid2).getD ⟨0, []⟩ := by
    rw [pageGet_eq_get?, hpg]
  by_cases hne : pid = pid2
  · subst hne
    cases hg : st.pages.get? pid with
    | none =>
      have hlen : st.pages.length ≤ pid := List.get?_eq_none.mp hg
      rw [h1, set_oob _ _ _ hlen, hg, pageGet_eq_get?, hg]
    | some pg =>
      rw [h1, get?_set_self _ _ _ _ hg]
      rfl
  · rw [h1, get?_set_ne _ _ _ _ hne, pageGet_eq_get?]

theorem pageIds_congr (cfg : Cfg) {p1 p2 : Page} (h : p1.start = p2.start) :
    pageIds cfg p1 = pageIds cfg p2 := by
  unfold pageIds
  rw [h]

theorem fold_length :
    ∀ (ids : List Nat) (acc : SweepAcc),
      (ids.foldl sweepSlot acc).objs.length = acc.objs.length := by
  intro ids
  induction ids with
  | nil => intro acc; rfl
  | cons x rest ih =>
    intro acc
    exact (ih (sweepSlot acc x)).trans (sweepSlot_spec acc x).1

theorem sweep_page_length (cfg : Cfg) (st : State) (pid : Nat) :
    (sweep_page cfg st pid).objs.length = st.objs.length := by
  rw [sweep_page_objs]
  exact fold_length _ _

theorem sweep_go_length (cfg : Cfg) :
    ∀ (work : List Nat) (st : State),
      (sweep_go cfg st work).objs.length = st.objs.length := by
  intro work
  induction work with
  | nil => intro st; rfl
  | cons q rest ih =>
    intro st
    exact (ih (sweep_page cfg st q)).trans (sweep_page_length cfg st q)

theorem sweep_go_heaps_sub (cfg : Cfg) :
    ∀ (work : List Nat) (st : State),
      (sweep_go cfg st work).heaps ⊆ st.heaps := by
  intro work
  induction work with
  | nil => intro st x hx; exact hx
  | cons q rest ih =>
    intro st x hx
    have h1 := ih (sweep_page cfg st q) hx
    rcases sweep_page_heaps_cases cfg st q with h | h
    · rwa [h] at h1
    · rw [h] at h1
      exact List.erase_subset _ _ h1

theorem sweep_go_start (cfg : Cfg) :
    ∀ (work : List Nat) (st : State) (pid : Nat),
      (pageGet (sweep_go cfg st work) pid).start = (pageGet st pid).start := by
  intro work
  induction work with
  | nil => intro st pid; rfl
  | cons q rest ih =>
    intro st pid
    exact (ih (sweep_page cfg st q) pid).trans (sweep_page_start cfg st q pid)

theorem sweep_go_preserves_white (cfg : Cfg) :
    ∀ (work : List Nat) (st : State) (j : Nat) (sl : Slot),
      st.objs.get? j = some sl → sl.color = .white →
      ∃ sl', (sweep_go cfg st work).objs.get? j = some sl' ∧ sl'.color = .white := by
  intro work
  induction work with
  | nil => intro st j sl hj hw; exact ⟨sl, hj, hw⟩
  | cons q rest ih =>
    intro st j sl hj hw
    have h1 : ∃ sl1, (sweep_page cfg st q).objs.get? j = some sl1 ∧ sl1.color = .white := by
      rw [sweep_page_objs]
      exact fold_preserves_white _ _ j sl hj hw
    obtain ⟨sl1, h1, hw1⟩ := h1
    exact ih (sweep_page cfg st q) j sl1 h1 hw1

theorem sweep_go_preserves_free (cfg : Cfg) :
    ∀ (work : List Nat) (st : State) (j : Nat) (sl : Slot),
      st.objs.get? j = some sl → sl.tt = .FREE →
      ∃ sl', (sweep_go cfg st work).objs.get? j = some sl' ∧ sl'.tt = .FREE := by
  intro work
  induction work with
  | nil => intro st j sl hj ht; exact ⟨sl, hj, ht⟩
  | cons q rest ih =>
    intro st j sl hj ht
    have h1 : ∃ sl1, (sweep_page cfg st q).objs.get? j = some sl1 ∧ sl1.tt = .FREE := by
      rw [sweep_page_objs]
      exact fold_preserves_free _ _ j sl hj ht
    obtain ⟨sl1, h1, ht1⟩ := h1
    exact ih (sweep_page cfg st q) j sl1 h1 ht1

/-- Every existing slot of a page on the sweep worklist is white after the
sweep loop. -/
theorem sweep_go_page_white (cfg : Cfg) :
    ∀ (work : List Nat) (st : State) (pid j : Nat), pid ∈ work →
      j ∈ pageIds cfg (pageGet st pid) →
      ∀ sl', (sweep_go cfg st work).objs.get? j = some sl' → sl'.color = .white := by
  intro work
  induction work with
  | nil => intro st pid j hpid; cases hpid
  | cons q rest ih =>
    intro st pid j hpid hj sl' hget
    by_cases hq : j ∈ pageIds cfg (pageGet st q)
    · -- processed during q's pass, then kept white
      have hgo : sweep_go cfg st (q :: rest) = sweep_go cfg (sweep_page cfg st q) rest := rfl
      rw [hgo] at hget
      cases h1 : (sweep_page cfg st q).objs.get? j with
      | none =>
        have hlen : (sweep_page cfg st q).objs.length ≤ j := List.get?_eq_none.mp h1
        have hlen2 : (sweep_go cfg (sweep_page cfg st q) rest).objs.length ≤ j := by
          rw [sweep_go_length]
          exact hlen
        rw [List.get?_eq_none.mpr hlen2] at hget
        cases hget
      | some sl1 =>
        have hw1 : sl1.color = .white := by
          rw [sweep_page_objs] at h1
          exact fold_page_white _ _ j hq sl1 h1
        obtain ⟨sl2, h2, hw2⟩ :=
          sweep_go_preserves_white cfg rest (sweep_page cfg st q) j sl1 h1 hw1
        rw [h2] at hget
        injection hget with h3
        rw [← h3]
        exact hw2
    · -- the slot belongs to a later page of the worklist
      have hpid2 : pid ∈ rest := by
        rcases List.mem_cons.mp hpid with h | h
        · exact absurd (h ▸ hj) hq
        · exact h
      have hjq : j ∈ pageIds cfg (pageGet (sweep_page cfg st q) pid) := by
        rwa [pageIds_congr cfg (sweep_page_start cfg st q pid)]
      exact ih (sweep_page cfg st q) pid j hpid2 hjq sl' hget

/-- A white slot with a real heap tag sitting on a page of the sweep
worklist ends with `tt = FREE` (it is freed if live, and stays free if
already free). -/
theorem sweep_go_page_frees (cfg : Cfg) :
    ∀ (work : List Nat) (st : State) (pid j : Nat) (sl : Slot), pid ∈ work →
      j ∈ pageIds cfg (pageGet st pid) →
      st.objs.get? j = some sl → sl.color = .white → heapTag sl.tt = true →
      ∃ sl', (sweep_go cfg st work).objs.get? j = some sl' ∧ sl'.tt = .FREE := by
  intro work
  induction work with
  | nil => intro st pid j sl hpid; cases hpid
  | cons q rest ih =>
    intro st pid j sl hpid hj hget hw htag
    by_cases hq : j ∈ pageIds cfg (pageGet st q)
    · have h1 : ∃ sl1, (sweep_page cfg st q).objs.get? j = some sl1 ∧ sl1.tt = .FREE := by
        rw [sweep_page_objs]
        exact fold_page_frees _ _ j sl hq hget hw htag
      obtain ⟨sl1, h1, ht1⟩ := h1
      exact sweep_go_preserves_free cfg rest (sweep_page cfg st q) j sl1 h1 ht1
    · have hpid2 : pid ∈ rest := by
        rcases List.mem_cons.mp hpid with h | h
        · exact absurd (h ▸ hj) hq
        · exact h
      have hjq : j ∈ pageIds cfg (pageGet (sweep_page cfg st q) pid) := by
        rwa [pageIds_congr cfg (sweep_page_start cfg st q pid)]
      have hget2 : (sweep_page cfg st q).objs.get? j = some sl := by
        rw [sweep_page_objs, fold_get?_not_mem _ _ j hq]
        exact hget
      exact ih (sweep_page cfg st q) pid j sl hpid2 hjq hget2 hw htag

/-! ### The collection pipeline -/

/-- `gc` unfolded: sweep runs over the heaps list captured at
`prepare_sweep`, on the store produced by `mark`. -/
theorem gc_eq (cfg : Cfg) (st : State) :
    gc cfg st =
      {sweep_go cfg (prepare_sweep {mark st with gc_state := .SWEEP}) st.heaps with
        gc_state := .NONE} := rfl

theorem prepare_mark_objs (st : State) :
    (prepare_sweep {mark st with gc_state := .SWEEP}).objs = (mark st).objs := rfl

theorem prepare_mark_pageGet (st : State) (pid : Nat) :
    pageGet (prepare_sweep {mark st with gc_state := .SWEEP}) pid = pageGet st pid := rfl

/-- An object is reachable from the collector's roots. -/
def ReachesRoots (st : State) (x : Nat) : Prop :=
  ∃ r, some r ∈ rootList st ∧ Reach st.objs r x

/-- A white slot that the marker cannot reach is left exactly as it was. -/
theorem mark_unreached_white (st : State) (x : Nat) (sl : Slot)
    (hget : st.objs.get? x = some sl) (hw : sl.color = .white)
    (hnr : ¬ReachesRoots st x) :
    (mark st).objs.get? x = some sl := by
  rcases (mark_colorStep st).2 x with heq | ⟨sl2, ha, hw2, hb⟩
  · rw [heq]; exact hget
  · -- x would have been painted black, hence reached
    exfalso
    have hblack : isBlackAt (mark st).objs x = true := by
      rw [isBlackAt_of_some hb]; simp
    rcases mark_sound st x hblack with hb0 | ⟨r, hr, hre⟩
    · rw [isBlackAt_of_some hget] at hb0
      rw [hw] at hb0
      simp at hb0
    · exact hnr ⟨r, hr, hre⟩

/-- Claim C6: after any collection completes, no slot on any page is
coloured black — every surviving slot was repainted white by sweep — and
every slot that was still white after the mark phase and live (with a real
heap tag; the immediate tags "cannot happen" on the heap per the code's own
comment) has been freed, its `tt` set to `FREE`. -/
theorem C6_no_black_after_collection (cfg : Cfg) (st : State) :
    (∀ pid, pid ∈ (gc cfg st).heaps →
      ∀ j, j ∈ pageIds cfg (pageGet (gc cfg st) pid) →
        ∀ sl, (gc cfg st).objs.get? j = some sl → sl.color ≠ .black) ∧
    (∀ pid j sl, pid ∈ st.heaps → j ∈ pageIds cfg (pageGet st pid) →
        (mark st).objs.get? j = some sl → sl.color = .white →
        heapTag sl.tt = true →
        ∃ sl', (gc cfg st).objs.get? j = some sl' ∧ sl'.tt = .FREE) := by
  constructor
  · intro pid hpid j hj sl hget hblack
    have hpid2 : pid ∈ st.heaps := by
      have h1 : (gc cfg st).heaps
          = (sweep_go cfg (prepare_sweep {mark st with gc_state := .SWEEP}) st.heaps).heaps :=
        rfl
      rw [h1] at hpid
      exact sweep_go_heaps_sub cfg st.heaps
        (prepare_sweep {mark st with gc_state := .SWEEP}) hpid
    have hj2 : j ∈ pageIds cfg
        (pageGet (prepare_sweep {mark st with gc_state := .SWEEP}) pid) := by
      have hstart : (pageGet (gc cfg st) pid).start
          = (pageGet (prepare_sweep {mark st with gc_state := .SWEEP}) pid).start := by
        have h1 : pageGet (gc cfg st) pid
            = pageGet (sweep_go cfg (prepare_sweep {mark st with gc_state := .SWEEP})
                st.heaps) pid := rfl
        rw [h1]
        exact sweep_go_start cfg st.heaps _ pid
      rwa [pageIds_congr cfg hstart] at hj
    have hget2 : (sweep_go cfg (prepare_sweep {mark st with gc_state := .SWEEP})
        st.heaps).objs.get? j = some sl := hget
    have := sweep_go_page_white cfg st.heaps _ pid j hpid2 hj2 sl hget2
    rw [this] at hblack
    cases hblack
  · intro pid j sl hpid hj hget hw htag
    have h := sweep_go_page_frees cfg st.heaps
      (prepare_sweep {mark st with gc_state := .SWEEP}) pid j sl hpid
      (by rwa [prepare_mark_pageGet]) (by rwa [prepare_mark_objs]) hw htag
    exact h

/-- A heap with one freshly allocated, unpinned object. -/
def stC9 : State :=
  (allocStep cfgC1 (some (mrb_init_heap cfgC1 (blankState cfgC1)))).getD (blankState cfgC1)

/-- Claim C6 witness: the slot of a rooted object, inspected after a
collection of a concrete heap (it survives repainted white). -/
theorem C6_no_black_after_collection_witness :
    Slot.color ⟨.OBJECT, .white, none, []⟩ ≠ .black :=
  (C6_no_black_after_collection cfgC1 stC9).1
    0 (by decide) 1 (by decide) ⟨.OBJECT, .white, none, []⟩ rfl

/-- Claim C9: `arena_restore(arena_save())` restores `arena_idx` to exactly
its value at the save (the whole state is unchanged), and after a restore any
white object on a heap page that is not reachable from any root of the
restored state is reclaimed by the next collection: its slot tag is `FREE`
afterwards.  (The heap-tag hypothesis excludes the immediate tags that
"cannot happen" on the heap.) -/
theorem C9_arena_roundtrip_reclaim (cfg : Cfg) :
    (∀ st : State, mrb_gc_arena_restore st (mrb_gc_arena_save st) = st) ∧
    (∀ (st : State) (idx : Int) (pid x : Nat) (sl : Slot),
      pid ∈ st.heaps → x ∈ pageIds cfg (pageGet st pid) →
      st.objs.get? x = some sl → sl.color = .white → heapTag sl.tt = true →
      ¬ReachesRoots (mrb_gc_arena_restore st idx) x →
      ∃ sl', (gc cfg (mrb_gc_arena_restore st idx)).objs.get? x = some sl' ∧
        sl'.tt = .FREE) := by
  constructor
  · intro st; rfl
  · intro st idx pid x sl hpid hx hget hw htag hnr
    have hget1 : (mrb_gc_arena_restore st idx).objs.get? x = some sl := hget
    have hmark : (mark (mrb_gc_arena_restore st idx)).objs.get? x = some sl :=
      mark_unreached_white _ x sl hget1 hw hnr
    have h := sweep_go_page_frees cfg (mrb_gc_arena_restore st idx).heaps
      (prepare_sweep {mark (mrb_gc_arena_restore st idx) with gc_state := .SWEEP})
      pid x sl hpid
      (by rw [prepare_mark_pageGet]; exact hx)
      (by rw [prepare_mark_objs]; exact hmark) hw htag
    exact h

/-- Claim C9 witness: the object allocated after init is reclaimed by the
collection following `arena_restore(0)`. -/
theorem C9_arena_roundtrip_reclaim_witness :
    mrb_gc_arena_restore stC9 (mrb_gc_arena_save stC9) = stC9 ∧
    ∃ sl', (gc cfgC1 (mrb_gc_arena_restore stC9 0)).objs.get? 1 = some sl' ∧
      sl'.tt = .FREE := by
  refine ⟨(C9_arena_roundtrip_reclaim cfgC1).1 stC9, ?_⟩
  refine (C9_arena_roundtrip_reclaim cfgC1).2 stC9 0 0 1 ⟨.OBJECT, .white, none, []⟩
    (by decide) (by decide) rfl rfl (by decide) ?_
  intro h
  obtain ⟨r, hr, -⟩ := h
  have : rootList (mrb_gc_arena_restore stC9 0) = [none, none, none] := rfl
  rw [this] at hr
  simp at hr

/-! ### Sweeping preserves tags modulo freeing, and references always -/

theorem obj_free_c (sl : Slot) : (obj_free sl).c = sl.c := by
  unfold obj_free
  split <;> rfl

theorem obj_free_refs (sl : Slot) : (obj_free sl).refs = sl.refs := by
  unfold obj_free
  split <;> rfl

theorem sweptSlot_c (sl : Slot) : (sweptSlot sl).c = sl.c := by
  unfold sweptSlot
  split
  · split
    · exact obj_free_c sl
    · rfl
  · rfl

theorem sweptSlot_refs (sl : Slot) : (sweptSlot sl).refs = sl.refs := by
  unfold sweptSlot
  split
  · split
    · exact obj_free_refs sl
    · rfl
  · rfl

/-- When white implies already-free, sweeping a slot keeps its tag. -/
theorem sweptSlot_tt_of {sl : Slot} (h : sl.color = .white → sl.tt = .FREE) :
    (sweptSlot sl).tt = sl.tt := by
  unfold sweptSlot
  by_cases hw : sl.color = .white
  · rw [if_pos hw, if_neg (by simpa using h hw)]
  · rw [if_neg hw]

theorem sweepSlot_slotRefs (acc : SweepAcc) (x : Nat) :
    ∀ j, slotRefs (sweepSlot acc x).objs j = slotRefs acc.objs j := by
  intro j
  by_cases hx : j = x
  · subst hx
    cases hj : acc.objs.get? j with
    | none =>
      have he : sweepSlot acc j = acc := by unfold sweepSlot; rw [hj]
      rw [he]
    | some sl =>
      rw [slotRefs_of_some ((sweepSlot_spec acc j).2.2.1 sl hj), slotRefs_of_some hj,
        sweptSlot_c, sweptSlot_refs]
  · unfold slotRefs
    rw [sweepSlot_get?_ne acc x j hx]

theorem fold_slotRefs :
    ∀ (ids : List Nat) (acc : SweepAcc) (j : Nat),
      slotRefs (ids.foldl sweepSlot acc).objs j = slotRefs acc.objs j := by
  intro ids
  induction ids with
  | nil => intro acc j; rfl
  | cons x rest ih =>
    intro acc j
    exact (ih (sweepSlot acc x) j).trans (sweepSlot_slotRefs acc x j)

theorem sweep_go_slotRefs (cfg : Cfg) :
    ∀ (work : List Nat) (st : State) (j : Nat),
      slotRefs (sweep_go cfg st work).objs j = slotRefs st.objs j := by
  intro work
  induction work with
  | nil => intro st j; rfl
  | cons q rest ih =>
    intro st j
    refine (ih (sweep_page cfg st q) j).trans ?_
    have h : (sweep_page cfg st q).objs
        = ((pageIds cfg (pageGet st q)).foldl sweepSlot
            ⟨st.objs, (pageGet st q).freelist, 0, true⟩).objs := sweep_page_objs cfg st q
    unfold slotRefs
    rw [h]
    have := fold_slotRefs (pageIds cfg (pageGet st q))
      ⟨st.objs, (pageGet st q).freelist, 0, true⟩ j
    unfold slotRefs at this
    exact this

/-- A collection never changes the reference structure of the store. -/
theorem gc_slotRefs (cfg : Cfg) (st : State) (j : Nat) :
    slotRefs (gc cfg st).objs j = slotRefs st.objs j := by
  have h1 : (gc cfg st).objs
      = (sweep_go cfg (prepare_sweep {mark st with gc_state := .SWEEP}) st.heaps).objs :=
    rfl
  rw [h1, sweep_go_slotRefs]
  exact (mark_colorStep st).slotRefs_eq j

/-- A collection never changes the root providers, so the root list is
stable. -/
theorem rootList_gc (cfg : Cfg) (st : State) : rootList (gc cfg st) = rootList st := by
  have h := gc_fields cfg st
  unfold rootList
  rw [h.1, h.2.1, h.2.2.1, h.2.2.2.1, h.2.2.2.2.1, h.2.2.2.2.2.1,
    h.2.2.2.2.2.2.1, h.2.2.2.2.2.2.2.1]

theorem gc_objs_length (cfg : Cfg) (st : State) :
    (gc cfg st).objs.length = st.objs.length := by
  have h1 : (gc cfg st).objs
      = (sweep_go cfg (prepare_sweep {mark st with gc_state := .SWEEP}) st.heaps).objs :=
    rfl
  rw [h1, sweep_go_length]
  exact (mark_colorStep st).1

theorem gc_pageGet_start (cfg : Cfg) (st : State) (pid : Nat) :
    (pageGet (gc cfg st) pid).start = (pageGet st pid).start := by
  have h1 : pageGet (gc cfg st) pid
      = pageGet (sweep_go cfg (prepare_sweep {mark st with gc_state := .SWEEP})
          st.heaps) pid := rfl
  rw [h1]
  exact sweep_go_start cfg st.heaps _ pid

theorem gc_heaps_sub (cfg : Cfg) (st : State) : (gc cfg st).heaps ⊆ st.heaps := by
  intro x hx
  have h1 : (gc cfg st).heaps
      = (sweep_go cfg (prepare_sweep {mark st with gc_state := .SWEEP}) st.heaps).heaps :=
    rfl
  rw [h1] at hx
  exact sweep_go_heaps_sub cfg st.heaps
    (prepare_sweep {mark st with gc_state := .SWEEP}) hx

theorem sweep_go_heaps_nodup (cfg : Cfg) :
    ∀ (work : List Nat) (st : State), st.heaps.Nodup → (sweep_go cfg st work).heaps.Nodup := by
  intro work
  induction work with
  | nil => intro st h; exact h
  | cons q rest ih =>
    intro st h
    refine ih (sweep_page cfg st q) ?_
    rcases sweep_page_heaps_cases cfg st q with hc | hc
    · rwa [hc]
    · rw [hc]
      exact h.erase q

theorem gc_heaps_nodup (cfg : Cfg) (st : State) (h : st.heaps.Nodup) :
    (gc cfg st).heaps.Nodup := by
  have h1 : (gc cfg st).heaps
      = (sweep_go cfg (prepare_sweep {mark st with gc_state := .SWEEP}) st.heaps).heaps :=
    rfl
  rw [h1]
  exact sweep_go_heaps_nodup cfg st.heaps _ h

theorem get?_some_of_lt {α : Type} (l : List α) (j : Nat) (h : j < l.length) :
    ∃ a, l.get? j = some a := by
  cases hg : l.get? j with
  | none => exact absurd (List.get?_eq_none.mp hg) (by omega)
  | some a => exact ⟨a, rfl⟩

theorem countP_zero {α : Type} (p : α → Bool) :
    ∀ l : List α, (∀ a ∈ l, p a = false) → l.countP p = 0 := by
  intro l
  induction l with
  | nil => intro _; rfl
  | cons x xs ih =>
    intro h
    rw [List.countP_cons, h x (List.mem_cons_self x xs),
      ih (fun a ha => h a (List.mem_cons_of_mem x ha))]
    simp

theorem pageIds_nodup (cfg : Cfg) (p : Page) : (pageIds cfg p).Nodup := by
  unfold pageIds
  exact (List.nodup_range _).map (fun a b h => by omega)

/-- When every white slot of the worklist's pages is already free, the sweep
loop frees nothing: it only repaints, leaving every tag and the `live`
counter unchanged.  The pages of the worklist must be distinct and pairwise
disjoint, as they are for real heaps. -/
theorem sweep_go_noop (cfg : Cfg) :
    ∀ (work : List Nat) (X : State),
      work.Nodup →
      (∀ p1 ∈ work, ∀ p2 ∈ work, p1 ≠ p2 → ∀ j, j ∈ pageIds cfg (pageGet X p1) →
          j ∉ pageIds cfg (pageGet X p2)) →
      (∀ pid ∈ work, ∀ j ∈ pageIds cfg (pageGet X pid), ∀ sl,
          X.objs.get? j = some sl → sl.color = .white → sl.tt = .FREE) →
      (∀ j, ((sweep_go cfg X work).objs.get? j).map Slot.tt
          = (X.objs.get? j).map Slot.tt) ∧
      (sweep_go cfg X work).live = X.live := by
  intro work
  induction work with
  | nil => intro X _ _ _; exact ⟨fun j => rfl, rfl⟩
  | cons q rest ih =>
    intro X hnd hdisj hfree
    have hqnr : q ∉ rest := (List.nodup_cons.mp hnd).1
    have hndr : rest.Nodup := (List.nodup_cons.mp hnd).2
    have hspec := sweep_page_spec cfg X q (pageIds_nodup cfg _)
    -- nothing on page q is freed
    have hfreed : pageFreed cfg X q = 0 := by
      unfold pageFreed
      refine countP_zero _ _ ?_
      intro j hj
      cases hg : X.objs.get? j with
      | none => exact freedPred_of_none hg
      | some sl =>
        rw [freedPred_of_some hg]
        by_cases hw : sl.color = .white
        · have := hfree q (List.mem_cons_self q rest) j hj sl hg hw
          simp [this]
        · simp [hw]
    -- page q's pass keeps every tag
    have htt1 : ∀ j, ((sweep_page cfg X q).objs.get? j).map Slot.tt
        = (X.objs.get? j).map Slot.tt := by
      intro j
      by_cases hj : j ∈ pageIds cfg (pageGet X q)
      · cases hg : X.objs.get? j with
        | none =>
          have hlen : X.objs.length ≤ j := List.get?_eq_none.mp hg
          have : (sweep_page cfg X q).objs.get? j = none := by
            refine List.get?_eq_none.mpr ?_
            rw [sweep_page_length]
            exact hlen
          rw [this]
        | some sl =>
          rw [hspec.2.2.1 j sl hj hg]
          have hsw : (sweptSlot sl).tt = sl.tt :=
            sweptSlot_tt_of (fun hw => hfree q (List.mem_cons_self q rest) j hj sl hg hw)
          simp [hsw]
      · rw [hspec.2.1 j hj]
    -- the later pages are untouched by q's pass
    have huntouched : ∀ pid ∈ rest, ∀ j ∈ pageIds cfg (pageGet X pid),
        (sweep_page cfg X q).objs.get? j = X.objs.get? j := by
      intro pid hpid j hj
      have hne : q ≠ pid := fun hc => hqnr (hc ▸ hpid)
      have hnj : j ∉ pageIds cfg (pageGet X q) :=
        fun hc => hdisj pid (List.mem_cons_of_mem q hpid) q (List.mem_cons_self q rest)
          hne.symm j hj hc
      rw [sweep_page_objs]
      exact fold_get?_not_mem _ _ j hnj
    have hstart : ∀ pid, pageIds cfg (pageGet (sweep_page cfg X q) pid)
        = pageIds cfg (pageGet X pid) := fun pid =>
      pageIds_congr cfg (sweep_page_start cfg X q pid)
    have hih := ih (sweep_page cfg X q) hndr
      (by
        intro p1 hp1 p2 hp2 hne j hj
        rw [hstart] at hj ⊢
        exact hdisj p1 (List.mem_cons_of_mem q hp1) p2 (List.mem_cons_of_mem q hp2)
          hne j hj)
      (by
        intro pid hpid j hj sl hg hw
        rw [hstart] at hj
        rw [huntouched pid hpid j hj] at hg
        exact hfree pid (List.mem_cons_of_mem q hpid) j hj sl hg hw)
    have hgo : sweep_go cfg X (q :: rest) = sweep_go cfg (sweep_page cfg X q) rest := rfl
    rw [hgo]
    constructor
    · intro j
      exact (hih.1 j).trans (htt1 j)
    · rw [hih.2, hspec.2.2.2.1, hfreed]
      omega

/-- Claim C5: the collector is idempotent.  From an idle heap state — every
slot white (as after any completed collection or fresh allocation), live
slots carrying real heap tags, everything root-reachable lying on a heap
page, and the pages distinct and disjoint — running a second back-to-back
collection frees no object: every slot's tag is unchanged and `live` does
not move.  (The first collection leaves every live object white and the
root set unchanged, so the second mark reaches the same set.) -/
theorem C5_collector_idempotent (cfg : Cfg) (st : State)
    (hwhite : ∀ j sl, st.objs.get? j = some sl → sl.color = .white)
    (htags : ∀ j sl, st.objs.get? j = some sl → sl.tt ≠ .FREE → heapTag sl.tt = true)
    (hclosed : ∀ x, ReachesRoots st x →
        ∃ pid, pid ∈ st.heaps ∧ x ∈ pageIds cfg (pageGet st pid))
    (hnd : st.heaps.Nodup)
    (hdisj : ∀ p1 ∈ st.heaps, ∀ p2 ∈ st.heaps, p1 ≠ p2 →
        ∀ j, j ∈ pageIds cfg (pageGet st p1) → j ∉ pageIds cfg (pageGet st p2)) :
    (∀ j, ((gc cfg (gc cfg st)).objs.get? j).map Slot.tt
        = ((gc cfg st).objs.get? j).map Slot.tt) ∧
    (gc cfg (gc cfg st)).live = (gc cfg st).live := by
  -- after the first collection every slot is white
  have hP4 : ∀ j sl, (gc cfg st).objs.get? j = some sl → sl.color = .white := by
    intro j sl hget
    rcases (mark_colorStep st).2 j with heq | ⟨sl0, ha, hw0, hb⟩
    · cases hg : st.objs.get? j with
      | none =>
        have hlen : st.objs.length ≤ j := List.get?_eq_none.mp hg
        have hnone : (gc cfg st).objs.get? j = none := by
          refine List.get?_eq_none.mpr ?_
          rw [gc_objs_length]
          exact hlen
        rw [hnone] at hget
        cases hget
      | some sl0 =>
        have hw0 := hwhite j sl0 hg
        have hmg : (prepare_sweep {mark st with gc_state := .SWEEP}).objs.get? j
            = some sl0 := by
          rw [prepare_mark_objs, heq]
          exact hg
        obtain ⟨sl', h', hw'⟩ :=
          sweep_go_preserves_white cfg st.heaps _ j sl0 hmg hw0
        have hget2 : (gc cfg st).objs.get? j = some sl' := h'
        rw [hget2] at hget
        injection hget with hh
        rw [← hh]
        exact hw'
    · have hblack : isBlackAt (mark st).objs j = true := by
        rw [isBlackAt_of_some hb]
        simp
      rcases mark_sound st j hblack with hb0 | ⟨r, hr, hre⟩
      · rw [isBlackAt_of_some ha] at hb0
        rw [hw0] at hb0
        simp at hb0
      · obtain ⟨pid, hpid, hjp⟩ := hclosed j ⟨r, hr, hre⟩
        exact sweep_go_page_white cfg st.heaps _ pid j hpid
          (by rw [prepare_mark_pageGet]; exact hjp) sl hget
  have hP5 : ∀ b, isBlackAt (gc cfg st).objs b = false := by
    intro b
    cases hg : (gc cfg st).objs.get? b with
    | none => unfold isBlackAt; rw [hg]
    | some sl =>
      rw [isBlackAt_of_some hg]
      simp [hP4 b sl hg]
  have hP6 : rootList (gc cfg st) = rootList st := rootList_gc cfg st
  have hP7 : ∀ j, slotRefs (gc cfg st).objs j = slotRefs st.objs j := gc_slotRefs cfg st
  have hP8 : ∀ x, ReachesRoots st x → ReachesRoots (gc cfg st) x := by
    rintro x ⟨r, hr, hre⟩
    exact ⟨r, by rw [hP6]; exact hr, reach_congr (fun j => (hP7 j).symm) r x hre⟩
  -- a live slot on a retained page was reached by the first mark
  have hP9 : ∀ pid, pid ∈ (gc cfg st).heaps →
      ∀ j, j ∈ pageIds cfg (pageGet (gc cfg st) pid) →
      ∀ sl, (gc cfg st).objs.get? j = some sl → sl.tt ≠ .FREE → ReachesRoots st j := by
    intro pid hpid j hj sl hget hlive
    have hpid2 : pid ∈ st.heaps := gc_heaps_sub cfg st hpid
    have hj2 : j ∈ pageIds cfg (pageGet st pid) := by
      rwa [pageIds_congr cfg (gc_pageGet_start cfg st pid)] at hj
    have hlt : j < st.objs.length := by
      have := lt_length_of_get?_some hget
      rwa [gc_objs_length] at this
    obtain ⟨sl0, hg0⟩ := get?_some_of_lt st.objs j hlt
    by_contra hnr
    have hmk : (prepare_sweep {mark st with gc_state := .SWEEP}).objs.get? j = some sl0 := by
      rw [prepare_mark_objs]
      exact mark_unreached_white st j sl0 hg0 (hwhite j sl0 hg0) hnr
    by_cases ht0 : sl0.tt = .FREE
    · obtain ⟨sl', h', ht'⟩ :=
        sweep_go_preserves_free cfg st.heaps _ j sl0 hmk ht0
      have hget2 : (gc cfg st).objs.get? j = some sl' := h'
      rw [hget2] at hget
      injection hget with hh
      exact hlive (hh ▸ ht')
    · have htag := htags j sl0 hg0 ht0
      obtain ⟨sl', h', ht'⟩ := sweep_go_page_frees cfg st.heaps _ pid j sl0 hpid2
        (by rw [prepare_mark_pageGet]; exact hj2) hmk (hwhite j sl0 hg0) htag
      have hget2 : (gc cfg st).objs.get? j = some sl' := h'
      rw [hget2] at hget
      injection hget with hh
      exact hlive (hh ▸ ht')
  -- after the second mark, a white page slot is already free
  have hH : ∀ pid, pid ∈ (gc cfg st).heaps →
      ∀ j, j ∈ pageIds cfg
        (pageGet (prepare_sweep {mark (gc cfg st) with gc_state := .SWEEP}) pid) →
      ∀ sl, (prepare_sweep {mark (gc cfg st) with gc_state := .SWEEP}).objs.get? j
          = some sl → sl.color = .white → sl.tt = .FREE := by
    intro pid hpid j hj sl hget hw
    rw [prepare_mark_pageGet] at hj
    rw [prepare_mark_objs] at hget
    rcases (mark_colorStep (gc cfg st)).2 j with heq | ⟨sl0, ha, hw0, hb⟩
    · have hget1 : (gc cfg st).objs.get? j = some sl := by rw [← heq]; exact hget
      by_contra htne
      obtain ⟨r, hr, hre⟩ := hP8 j (hP9 pid hpid j hj sl hget1 htne)
      have hnw := mark_reach_nonwhite (gc cfg st) hP5 r j hr hre
      have : isWhiteAt (mark (gc cfg st)).objs j = true := by
        rw [isWhiteAt_of_some hget]
        simp [hw]
      rw [hnw] at this
      cases this
    · rw [hb] at hget
      injection hget with hh
      rw [← hh] at hw
      simp at hw
  have hnd1 : (gc cfg st).heaps.Nodup := gc_heaps_nodup cfg st hnd
  have hdisj1 : ∀ p1 ∈ (gc cfg st).heaps, ∀ p2 ∈ (gc cfg st).heaps, p1 ≠ p2 →
      ∀ j, j ∈ pageIds cfg
          (pageGet (prepare_sweep {mark (gc cfg st) with gc_state := .SWEEP}) p1) →
        j ∉ pageIds cfg
          (pageGet (prepare_sweep {mark (gc cfg st) with gc_state := .SWEEP}) p2) := by
    intro p1 hp1 p2 hp2 hne j hj
    rw [prepare_mark_pageGet] at hj ⊢
    rw [pageIds_congr cfg (gc_pageGet_start cfg st p1)] at hj
    rw [pageIds_congr cfg (gc_pageGet_start cfg st p2)]
    exact hdisj p1 (gc_heaps_sub cfg st hp1) p2 (gc_heaps_sub cfg st hp2) hne j hj
  have hnoop := sweep_go_noop cfg (gc cfg st).heaps
    (prepare_sweep {mark (gc cfg st) with gc_state := .SWEEP}) hnd1 hdisj1 hH
  constructor
  · intro j
    have h1 : (gc cfg (gc cfg st)).objs
        = (sweep_go cfg (prepare_sweep {mark (gc cfg st) with gc_state := .SWEEP})
            (gc cfg st).heaps).objs := rfl
    rw [h1, hnoop.1 j]
    exact (mark_colorStep (gc cfg st)).tt_eq j
  · have h1 : (gc cfg (gc cfg st)).live
        = (sweep_go cfg (prepare_sweep {mark (gc cfg st) with gc_state := .SWEEP})
            (gc cfg st).heaps).live := rfl
    rw [h1, hnoop.2]
    rfl

/-- Claim C5 witness: two back-to-back collections of a concrete one-object
heap leave `live` unchanged the second time. -/
theorem C5_collector_idempotent_witness :
    (gc cfgC1 (gc cfgC1 stC9)).live = (gc cfgC1 stC9).live := by
  have he : stC9.objs = [⟨.FREE, .white, none, []⟩, ⟨.OBJECT, .white, none, []⟩] := rfl
  refine (C5_collector_idempotent cfgC1 stC9 ?_ ?_ ?_ (by decide) ?_).2
  · intro j sl h
    rw [he] at h
    match j with
    | 0 => injection h with hh; rw [← hh]
    | 1 => injection h with hh; rw [← hh]
    | n+2 => exact Option.noConfusion h
  · intro j sl h ht
    rw [he] at h
    match j with
    | 0 =>
      injection h with hh
      rw [← hh] at ht
      exact absurd rfl ht
    | 1 => injection h with hh; rw [← hh]; rfl
    | n+2 => exact Option.noConfusion h
  · intro x hx
    obtain ⟨r, hr, hre⟩ := hx
    have hroot : rootList stC9 = [some 1, none, none, none] := rfl
    rw [hroot] at hr
    have hr1 : r = 1 := by simpa using hr
    subst hr1
    have hx1 : x = 1 := by
      cases hre with
      | refl => rfl
      | head hmem _ =>
        have hsr : slotRefs stC9.objs 1 = [none] := rfl
        rw [hsr] at hmem
        simp at hmem
    subst hx1
    exact ⟨0, by decide, by decide⟩
  · intro p1 hp1 p2 hp2 hne j hj
    have h1 : stC9.heaps = [0] := rfl
    rw [h1] at hp1 hp2
    simp at hp1 hp2
    exact absurd (by rw [hp1, hp2]) hne

/-! ### Claim C4: the `live` counter

`liveCount` is the number the claim talks about: the count of slots with
`tt != MRB_TT_FREE` across all pages of the all-pages list. -/

/-- Is the slot at `j` live (`tt != MRB_TT_FREE`)? -/
def livePred (objs : List Slot) (j : Nat) : Bool :=
  match objs.get? j with
  | some sl => decide (sl.tt ≠ .FREE)
  | none => false

/-- Count of slots with `tt != FREE` across all pages of the all-pages
list. -/
def liveCount (cfg : Cfg) (st : State) : Nat :=
  (st.heaps.map (fun pid =>
    (pageIds cfg (pageGet st pid)).countP (livePred st.objs))).sum

theorem livePred_of_some {objs : List Slot} {j : Nat} {sl : Slot}
    (hj : objs.get? j = some sl) : livePred objs j = decide (sl.tt ≠ .FREE) := by
  unfold livePred
  rw [hj]

theorem livePred_of_none {objs : List Slot} {j : Nat} (hj : objs.get? j = none) :
    livePred objs j = false := by
  unfold livePred
  rw [hj]

theorem mem_pageIds_iff (cfg : Cfg) (p : Page) (j : Nat) :
    j ∈ pageIds cfg p ↔ p.start ≤ j ∧ j < p.start + cfg.heapPageSize := by
  unfold pageIds
  simp only [List.mem_map, List.mem_range]
  constructor
  · rintro ⟨i, hi, rfl⟩
    omega
  · rintro ⟨h1, h2⟩
    exact ⟨j - p.start, by omega, by omega⟩

/-- Transfer a `get? = some` fact along an equality of the `tt` projections of
two stores. -/
theorem tt_transfer {o1 o2 : List Slot} {j : Nat} {sl : Slot}
    (htt : (o2.get? j).map Slot.tt = (o1.get? j).map Slot.tt)
    (h2 : o2.get? j = some sl) :
    ∃ sl1, o1.get? j = some sl1 ∧ sl1.tt = sl.tt := by
  rw [h2] at htt
  cases h1 : o1.get? j with
  | none =>
    rw [h1] at htt
    exact Option.noConfusion htt
  | some sl1 =>
    rw [h1] at htt
    injection htt with h3
    exact ⟨sl1, rfl, h3.symm⟩

theorem livePred_congr {o1 o2 : List Slot} (j : Nat)
    (htt : (o2.get? j).map Slot.tt = (o1.get? j).map Slot.tt) :
    livePred o2 j = livePred o1 j := by
  cases h2 : o2.get? j with
  | none =>
    rw [h2] at htt
    cases h1 : o1.get? j with
    | none => rw [livePred_of_none h1, livePred_of_none h2]
    | some sl1 =>
      rw [h1] at htt
      exact Option.noConfusion htt
  | some sl =>
    obtain ⟨sl1, h1, h3⟩ := tt_transfer htt h2
    rw [livePred_of_some h1, livePred_of_some h2, h3]

theorem map_congr_list {α β : Type} (f g : α → β) :
    ∀ l : List α, (∀ a ∈ l, f a = g a) → l.map f = l.map g := by
  intro l
  induction l with
  | nil => intro _; rfl
  | cons x xs ih =>
    intro h
    rw [List.map_cons, List.map_cons, h x (List.mem_cons_self x xs),
      ih (fun a ha => h a (List.mem_cons_of_mem x ha))]

/-- Three pointwise 0/1 weights that add up do so in count. -/
theorem countP_split {α : Type} (p q r : α → Bool) :
    ∀ l : List α,
      (∀ a ∈ l, (if p a then 1 else 0) + (if q a then 1 else 0)
          = (if r a then 1 else 0)) →
      l.countP p + l.countP q = l.countP r := by
  intro l
  induction l with
  | nil => intro _; rfl
  | cons x xs ih =>
    intro h
    have hx := h x (List.mem_cons_self x xs)
    have hxs := ih (fun a ha => h a (List.mem_cons_of_mem x ha))
    rw [List.countP_cons, List.countP_cons, List.countP_cons]
    omega

/-- Flipping a single listed element from false to true bumps the count by
one. -/
theorem countP_flip {α : Type} (p q : α → Bool) (x : α) :
    ∀ l : List α, l.Nodup → x ∈ l →
      (∀ a ∈ l, a ≠ x → p a = q a) → p x = false → q x = true →
      l.countP q = l.countP p + 1 := by
  intro l
  induction l with
  | nil => intro _ hm _ _ _; cases hm
  | cons y ys ih =>
    intro hnd hm hcon hp hq
    have hynys : y ∉ ys := (List.nodup_cons.mp hnd).1
    have hndys : ys.Nodup := (List.nodup_cons.mp hnd).2
    rw [List.countP_cons, List.countP_cons]
    rcases List.mem_cons.mp hm with hxy | hxys
    · subst hxy
      have heq : ys.countP q = ys.countP p := by
        refine countP_congr_list q p ys (fun a ha => ?_)
        exact (hcon a (List.mem_cons_of_mem x ha) (fun hc => hynys (hc ▸ ha))).symm
      rw [heq, hp, hq]
      simp
    · have hpy : p y = q y :=
        hcon y (List.mem_cons_self y ys) (fun hc => hynys (hc ▸ hxys))
      have hih := ih hndys hxys
        (fun a ha hax => hcon a (List.mem_cons_of_mem y ha) hax) hp hq
      rw [← hpy]
      omega

/-- Summing a function over a list after changing it at one listed point. -/
theorem sum_map_update (f g : Nat → Nat) (x d : Nat) :
    ∀ l : List Nat, l.Nodup → x ∈ l →
      (∀ y ∈ l, y ≠ x → g y = f y) → g x + d = f x →
      (l.map g).sum + d = (l.map f).sum := by
  intro l
  induction l with
  | nil => intro _ hm _ _; cases hm
  | cons y ys ih =>
    intro hnd hm hcon hx
    have hynys : y ∉ ys := (List.nodup_cons.mp hnd).1
    have hndys : ys.Nodup := (List.nodup_cons.mp hnd).2
    simp only [List.map_cons, List.sum_cons]
    rcases List.mem_cons.mp hm with hxy | hxys
    · subst hxy
      have heq : ys.map g = ys.map f :=
        map_congr_list g f ys
          (fun a ha => hcon a (List.mem_cons_of_mem x ha) (fun hc => hynys (hc ▸ ha)))
      rw [heq]
      omega
    · have hgy : g y = f y :=
        hcon y (List.mem_cons_self y ys) (fun hc => hynys (hc ▸ hxys))
      have hih := ih hndys hxys
        (fun a ha hax => hcon a (List.mem_cons_of_mem y ha) hax) hx
      omega

/-- Splitting a sum over a list at one listed element. -/
theorem sum_map_erase (f : Nat → Nat) (x : Nat) :
    ∀ l : List Nat, x ∈ l →
      (l.map f).sum = ((l.erase x).map f).sum + f x := by
  intro l
  induction l with
  | nil => intro hm; cases hm
  | cons y ys ih =>
    intro hm
    by_cases hxy : y = x
    · subst hxy
      rw [List.erase_cons_head]
      simp only [List.map_cons, List.sum_cons]
      omega
    · have hxys : x ∈ ys := by
        rcases List.mem_cons.mp hm with h | h
        · exact absurd h.symm hxy
        · exact h
      rw [List.erase_cons, if_neg (show ¬((y == x) = true) by simp [hxy])]
      simp only [List.map_cons, List.sum_cons]
      rw [ih hxys]
      omega

theorem get?_append_left {α : Type} :
    ∀ (l1 l2 : List α) (j : Nat), j < l1.length → (l1 ++ l2).get? j = l1.get? j := by
  intro l1
  induction l1 with
  | nil => intro l2 j h; exact absurd h (Nat.not_lt_zero j)
  | cons x xs ih =>
    intro l2 j h
    cases j with
    | zero => rfl
    | succ n => exact ih l2 n (Nat.lt_of_succ_lt_succ h)

theorem get?_append_right {α : Type} :
    ∀ (l1 l2 : List α) (j : Nat), l1.length ≤ j →
      (l1 ++ l2).get? j = l2.get? (j - l1.length) := by
  intro l1
  induction l1 with
  | nil => intro l2 j _; rfl
  | cons x xs ih =>
    intro l2 j h
    cases j with
    | zero => exact (Nat.not_succ_le_zero _ h).elim
    | succ n =>
      show (xs ++ l2).get? n = l2.get? (n + 1 - (xs.length + 1))
      rw [Nat.add_sub_add_right]
      exact ih l2 n (Nat.le_of_succ_le_succ h)

theorem get?_replicate {α : Type} (a : α) :
    ∀ (n j : Nat), j < n → (List.replicate n a).get? j = some a := by
  intro n
  induction n with
  | zero => intro j h; exact absurd h (Nat.not_lt_zero j)
  | succ m ih =>
    intro j h
    cases j with
    | zero => rfl
    | succ k => exact ih k (Nat.lt_of_succ_lt_succ h)

/-- `obj_free` either clears the tag or returns early with it unchanged. -/
theorem obj_free_tt_cases (sl : Slot) :
    (obj_free sl).tt = .FREE ∨ (obj_free sl).tt = sl.tt := by
  unfold obj_free
  split
  all_goals first
  | exact Or.inr rfl
  | exact Or.inl rfl

/-- A swept slot's tag is either cleared or the one it had. -/
theorem sweptSlot_tt_cases (sl : Slot) :
    (sweptSlot sl).tt = .FREE ∨ (sweptSlot sl).tt = sl.tt := by
  unfold sweptSlot
  by_cases hw : sl.color = .white
  · rw [if_pos hw]
    by_cases ht : sl.tt ≠ .FREE
    · rw [if_pos ht]
      exact obj_free_tt_cases sl
    · rw [if_neg ht]
      exact Or.inr rfl
  · rw [if_neg hw]
    exact Or.inr rfl

/-- The heap-shape invariant `mrb_obj_alloc` and the collector maintain: the
`live` counter agrees with `liveCount`; pages on the all-pages list are
distinct valid page ids with slot ranges inside the store and pairwise
disjoint; every page free list holds distinct slots of its own page, all with
`tt = FREE`; the pages-with-free-slots list holds distinct pages of the
all-pages list with non-empty free lists; and every live page slot carries a
tag `obj_free` can clear (the immediate tags "cannot happen" on the heap, per
the code's own comment). -/
structure Inv (cfg : Cfg) (st : State) : Prop where
  live_eq : st.live = liveCount cfg st
  heaps_nodup : st.heaps.Nodup
  heaps_lt : ∀ pid ∈ st.heaps, pid < st.pages.length
  pages_valid : ∀ pid ∈ st.heaps,
      (pageGet st pid).start + cfg.heapPageSize ≤ st.objs.length
  pages_disjoint : ∀ p1 ∈ st.heaps, ∀ p2 ∈ st.heaps, p1 ≠ p2 →
      ∀ j, j ∈ pageIds cfg (pageGet st p1) → j ∉ pageIds cfg (pageGet st p2)
  freelist_mem : ∀ pid ∈ st.heaps, ∀ j ∈ (pageGet st pid).freelist,
      j ∈ pageIds cfg (pageGet st pid)
  freelist_free : ∀ pid ∈ st.heaps, ∀ j ∈ (pageGet st pid).freelist,
      ∀ sl, st.objs.get? j = some sl → sl.tt = .FREE
  freelist_nodup : ∀ pid ∈ st.heaps, (pageGet st pid).freelist.Nodup
  free_heaps_sub : ∀ pid ∈ st.free_heaps, pid ∈ st.heaps
  free_heaps_ne : ∀ pid ∈ st.free_heaps, (pageGet st pid).freelist ≠ []
  free_heaps_nodup : st.free_heaps.Nodup
  good_tags : ∀ pid ∈ st.heaps, ∀ j ∈ pageIds cfg (pageGet st pid),
      ∀ sl, st.objs.get? j = some sl → sl.tt ≠ .FREE → heapTag sl.tt = true

theorem liveCount_congr (cfg : Cfg) {st1 st2 : State}
    (hh : st2.heaps = st1.heaps) (hp : st2.pages = st1.pages)
    (htt : ∀ j, (st2.objs.get? j).map Slot.tt = (st1.objs.get? j).map Slot.tt) :
    liveCount cfg st2 = liveCount cfg st1 := by
  unfold liveCount
  rw [hh]
  congr 1
  refine map_congr_list _ _ st1.heaps (fun pid _ => ?_)
  rw [pageGet_pages_congr hp pid]
  exact countP_congr_list _ _ _ (fun j _ => livePred_congr j (htt j))

/-- The invariant only looks at the heap bookkeeping and the slot tags, so it
transports along agreement of those fields. -/
theorem inv_congr (cfg : Cfg) {st1 st2 : State}
    (hheaps : st2.heaps = st1.heaps) (hpages : st2.pages = st1.pages)
    (hfree : st2.free_heaps = st1.free_heaps) (hlive : st2.live = st1.live)
    (hlen : st2.objs.length = st1.objs.length)
    (htt : ∀ j, (st2.objs.get? j).map Slot.tt = (st1.objs.get? j).map Slot.tt)
    (h : Inv cfg st1) : Inv cfg st2 := by
  refine ⟨?_, ?_, ?_, ?_, ?_, ?_, ?_, ?_, ?_, ?_, ?_, ?_⟩
  · rw [hlive, liveCount_congr cfg hheaps hpages htt]
    exact h.live_eq
  · rw [hheaps]
    exact h.heaps_nodup
  · rw [hheaps, hpages]
    exact h.heaps_lt
  · intro pid hpid
    rw [pageGet_pages_congr hpages, hlen]
    exact h.pages_valid pid (hheaps ▸ hpid)
  · intro p1 h1 p2 h2 hne j hj
    rw [pageGet_pages_congr hpages] at hj ⊢
    exact h.pages_disjoint p1 (hheaps ▸ h1) p2 (hheaps ▸ h2) hne j hj
  · intro pid hpid j hj
    rw [pageGet_pages_congr hpages] at hj ⊢
    exact h.freelist_mem pid (hheaps ▸ hpid) j hj
  · intro pid hpid j hj sl hsl
    obtain ⟨sl1, h1, h3⟩ := tt_transfer (htt j) hsl
    rw [← h3]
    rw [pageGet_pages_congr hpages] at hj
    exact h.freelist_free pid (hheaps ▸ hpid) j hj sl1 h1
  · intro pid hpid
    rw [pageGet_pages_congr hpages]
    exact h.freelist_nodup pid (hheaps ▸ hpid)
  · rw [hfree, hheaps]
    exact h.free_heaps_sub
  · intro pid hpid
    rw [pageGet_pages_congr hpages]
    exact h.free_heaps_ne pid (hfree ▸ hpid)
  · rw [hfree]
    exact h.free_heaps_nodup
  · intro pid hpid j hj sl hsl hne
    obtain ⟨sl1, h1, h3⟩ := tt_transfer (htt j) hsl
    rw [← h3]
    rw [pageGet_pages_congr hpages] at hj
    exact h.good_tags pid (hheaps ▸ hpid) j hj sl1 h1 (h3 ▸ hne)

theorem livePred_congr_get {o1 o2 : List Slot} (j : Nat)
    (h : o2.get? j = o1.get? j) : livePred o2 j = livePred o1 j := by
  unfold livePred
  rw [h]

theorem pageGet_add_heap_old (cfg : Cfg) (st : State) (pid : Nat)
    (hlt : pid < st.pages.length) :
    pageGet (add_heap cfg st) pid = pageGet st pid := by
  rw [pageGet_eq_get?, pageGet_eq_get?, add_heap_pages, get?_append_left _ _ _ hlt]

theorem add_heap_objs_length (cfg : Cfg) (st : State) :
    (add_heap cfg st).objs.length = st.objs.length + cfg.heapPageSize := by
  rw [add_heap_objs]
  simp

theorem add_heap_pages_length (cfg : Cfg) (st : State) :
    (add_heap cfg st).pages.length = st.pages.length + 1 := by
  rw [add_heap_pages]
  simp

/-- `add_heap` keeps the heap-shape invariant: the fresh page is disjoint
from the old store, all its slots are `FREE` and threaded on its free
list. -/
theorem add_heap_inv (cfg : Cfg) (st : State) (hP : 0 < cfg.heapPageSize)
    (h : Inv cfg st) : Inv cfg (add_heap cfg st) := by
  have hid_old : ∀ pid ∈ st.heaps, ∀ j ∈ pageIds cfg (pageGet st pid),
      j < st.objs.length := by
    intro pid hpid j hj
    have h1 := h.pages_valid pid hpid
    have h2 := (mem_pageIds_iff cfg _ j).mp hj
    omega
  have hobj_old : ∀ j, j < st.objs.length →
      (add_heap cfg st).objs.get? j = st.objs.get? j := by
    intro j hj
    rw [add_heap_objs]
    exact get?_append_left _ _ _ hj
  have hnpid : st.pages.length ∉ st.heaps := by
    intro hc
    exact absurd (h.heaps_lt _ hc) (by omega)
  have hnpidf : st.pages.length ∉ st.free_heaps := by
    intro hc
    exact hnpid (h.free_heaps_sub _ hc)
  have hobj_new : ∀ j, st.objs.length ≤ j → j < st.objs.length + cfg.heapPageSize →
      (add_heap cfg st).objs.get? j = some freeSlot := by
    intro j h1 h2
    rw [add_heap_objs, get?_append_right _ _ _ h1]
    exact get?_replicate _ _ _ (by omega)
  have hznew : ∀ j ∈ pageIds cfg
      (⟨st.objs.length,
        ((List.range cfg.heapPageSize).map (st.objs.length + ·)).reverse⟩ : Page),
      livePred (add_heap cfg st).objs j = false := by
    intro j hj
    have h2 := (mem_pageIds_iff cfg _ j).mp hj
    rw [livePred_of_some (hobj_new j h2.1 h2.2)]
    rfl
  have hcount_old : ∀ pid ∈ st.heaps,
      (pageIds cfg (pageGet (add_heap cfg st) pid)).countP
          (livePred (add_heap cfg st).objs)
        = (pageIds cfg (pageGet st pid)).countP (livePred st.objs) := by
    intro pid hpid
    rw [pageGet_add_heap_old cfg st pid (h.heaps_lt pid hpid)]
    refine countP_congr_list _ _ _ (fun j hj => ?_)
    exact livePred_congr_get j (hobj_old j (hid_old pid hpid j hj))
  refine ⟨?_, ?_, ?_, ?_, ?_, ?_, ?_, ?_, ?_, ?_, ?_, ?_⟩
  · rw [add_heap_live]
    unfold liveCount
    rw [add_heap_heaps]
    simp only [List.map_cons, List.sum_cons]
    rw [pageGet_add_heap, countP_zero _ _ hznew]
    have htail := map_congr_list
      (fun pid => (pageIds cfg (pageGet (add_heap cfg st) pid)).countP
          (livePred (add_heap cfg st).objs))
      (fun pid => (pageIds cfg (pageGet st pid)).countP (livePred st.objs))
      st.heaps hcount_old
    rw [htail]
    have hle := h.live_eq
    unfold liveCount at hle
    omega
  · rw [add_heap_heaps]
    exact List.nodup_cons.mpr ⟨hnpid, h.heaps_nodup⟩
  · intro pid hpid
    rw [add_heap_heaps] at hpid
    rw [add_heap_pages_length]
    rcases List.mem_cons.mp hpid with hh | hh
    · omega
    · have := h.heaps_lt pid hh
      omega
  · intro pid hpid
    rw [add_heap_heaps] at hpid
    rw [add_heap_objs_length]
    rcases List.mem_cons.mp hpid with hh | hh
    · subst hh
      rw [pageGet_add_heap]
    · rw [pageGet_add_heap_old cfg st pid (h.heaps_lt pid hh)]
      have := h.pages_valid pid hh
      omega
  · intro p1 hp1 p2 hp2 hne j hj1 hj2
    rw [add_heap_heaps] at hp1 hp2
    rcases List.mem_cons.mp hp1 with hh1 | hh1 <;>
      rcases List.mem_cons.mp hp2 with hh2 | hh2
    · exact hne (hh1.trans hh2.symm)
    · subst hh1
      rw [pageGet_add_heap] at hj1
      rw [pageGet_add_heap_old cfg st p2 (h.heaps_lt p2 hh2)] at hj2
      have ha := (mem_pageIds_iff cfg _ j).mp hj1
      dsimp only at ha
      have hb := hid_old p2 hh2 j hj2
      omega
    · subst hh2
      rw [pageGet_add_heap] at hj2
      rw [pageGet_add_heap_old cfg st p1 (h.heaps_lt p1 hh1)] at hj1
      have ha := (mem_pageIds_iff cfg _ j).mp hj2
      dsimp only at ha
      have hb := hid_old p1 hh1 j hj1
      omega
    · rw [pageGet_add_heap_old cfg st p1 (h.heaps_lt p1 hh1)] at hj1
      rw [pageGet_add_heap_old cfg st p2 (h.heaps_lt p2 hh2)] at hj2
      exact h.pages_disjoint p1 hh1 p2 hh2 hne j hj1 hj2
  · intro pid hpid j hj
    rw [add_heap_heaps] at hpid
    rcases List.mem_cons.mp hpid with hh | hh
    · subst hh
      rw [pageGet_add_heap] at hj ⊢
      unfold pageIds
      rw [List.mem_reverse] at hj
      exact hj
    · rw [pageGet_add_heap_old cfg st pid (h.heaps_lt pid hh)] at hj ⊢
      exact h.freelist_mem pid hh j hj
  · intro pid hpid j hj sl hsl
    rw [add_heap_heaps] at hpid
    rcases List.mem_cons.mp hpid with hh | hh
    · subst hh
      rw [pageGet_add_heap] at hj
      rw [List.mem_reverse] at hj
      have hj2 : j ∈ pageIds cfg
          (⟨st.objs.length,
            ((List.range cfg.heapPageSize).map (st.objs.length + ·)).reverse⟩ : Page) := hj
      have h2 := (mem_pageIds_iff cfg _ j).mp hj2
      rw [hobj_new j h2.1 h2.2] at hsl
      injection hsl with hh2
      rw [← hh2]
      rfl
    · rw [pageGet_add_heap_old cfg st pid (h.heaps_lt pid hh)] at hj
      have hjlt := hid_old pid hh j (h.freelist_mem pid hh j hj)
      rw [hobj_old j hjlt] at hsl
      exact h.freelist_free pid hh j hj sl hsl
  · intro pid hpid
    rw [add_heap_heaps] at hpid
    rcases List.mem_cons.mp hpid with hh | hh
    · subst hh
      rw [pageGet_add_heap]
      exact List.nodup_reverse.mpr ((List.nodup_range _).map (fun a b hab => by omega))
    · rw [pageGet_add_heap_old cfg st pid (h.heaps_lt pid hh)]
      exact h.freelist_nodup pid hh
  · intro pid hpid
    rw [add_heap_free_heaps] at hpid
    rw [add_heap_heaps]
    rcases List.mem_cons.mp hpid with hh | hh
    · exact List.mem_cons.mpr (Or.inl hh)
    · exact List.mem_cons.mpr (Or.inr (h.free_heaps_sub pid hh))
  · intro pid hpid
    rw [add_heap_free_heaps] at hpid
    rcases List.mem_cons.mp hpid with hh | hh
    · subst hh
      rw [pageGet_add_heap]
      intro hc
      have hlc := congrArg List.length hc
      simp at hlc
      omega
    · rw [pageGet_add_heap_old cfg st pid (h.heaps_lt pid (h.free_heaps_sub pid hh))]
      exact h.free_heaps_ne pid hh
  · rw [add_heap_free_heaps]
    exact List.nodup_cons.mpr ⟨hnpidf, h.free_heaps_nodup⟩
  · intro pid hpid j hj sl hsl hne
    rw [add_heap_heaps] at hpid
    rcases List.mem_cons.mp hpid with hh | hh
    · subst hh
      rw [pageGet_add_heap] at hj
      have h2 := (mem_pageIds_iff cfg _ j).mp hj
      rw [hobj_new j h2.1 h2.2] at hsl
      injection hsl with hh2
      rw [← hh2] at hne
      exact absurd rfl hne
    · rw [pageGet_add_heap_old cfg st pid (h.heaps_lt pid hh)] at hj
      rw [hobj_old j (hid_old pid hh j hj)] at hsl
      exact h.good_tags pid hh j hj sl hsl hne

theorem alloc_from_page_err_nil_fh (cfg : Cfg) (st : State) (ttype : Vtype)
    (cls : Option Nat) (hfh : st.free_heaps = []) :
    alloc_from_page cfg st ttype cls = .error (.nullDeref, st) := by
  simp only [alloc_from_page, hfh]

theorem alloc_from_page_err_nil_fl (cfg : Cfg) (st : State) (ttype : Vtype)
    (cls : Option Nat) (fp : Nat) (rest0 : List Nat)
    (hfh : st.free_heaps = fp :: rest0) (hfl : (pageGet st fp).freelist = []) :
    alloc_from_page cfg st ttype cls = .error (.nullDeref, st) := by
  simp only [alloc_from_page, hfh, hfl]

theorem alloc_from_page_err_overflow (cfg : Cfg) (st : State) (ttype : Vtype)
    (cls : Option Nat) (fp : Nat) (rest0 : List Nat) (p : Nat) (rest : List Nat)
    (hfh : st.free_heaps = fp :: rest0) (hfl : (pageGet st fp).freelist = p :: rest)
    (hidx : (cfg.arenaSize : Int) ≤ st.arena_idx) :
    ∃ e, alloc_from_page cfg st ttype cls = .error e := by
  by_cases hre : rest.isEmpty = true
  · simp only [alloc_from_page, hfh, hfl, setPage, unlink_free_heap_page]
    rw [if_pos hre]
    simp only [gc_protect]
    rw [if_pos hidx]
    exact ⟨_, rfl⟩
  · simp only [alloc_from_page, hfh, hfl, setPage, unlink_free_heap_page]
    rw [if_neg hre]
    simp only [gc_protect]
    rw [if_pos hidx]
    exact ⟨_, rfl⟩

/-- Inversion of a successful `alloc_from_page`: the shape of the entry state
and the exact exit state. -/
theorem alloc_from_page_ok_inversion (cfg : Cfg) (st : State) (ttype : Vtype)
    (cls : Option Nat) (p : Nat) (st2 : State)
    (hok : alloc_from_page cfg st ttype cls = .ok (p, st2)) :
    ∃ fp rest0 rest,
      st.free_heaps = fp :: rest0 ∧
      (pageGet st fp).freelist = p :: rest ∧
      st.arena_idx < (cfg.arenaSize : Int) ∧
      st2.objs = st.objs.set p ⟨ttype, .white, cls, []⟩ ∧
      st2.pages = st.pages.set fp {pageGet st fp with freelist := rest} ∧
      st2.heaps = st.heaps ∧
      st2.live = st.live + 1 ∧
      st2.free_heaps =
        (if rest.isEmpty then st.free_heaps.erase fp else st.free_heaps) := by
  rcases hfh : st.free_heaps with _ | ⟨fp, rest0⟩
  · rw [alloc_from_page_err_nil_fh cfg st ttype cls hfh] at hok
    exact Except.noConfusion hok
  · rcases hfl : (pageGet st fp).freelist with _ | ⟨p0, rest⟩
    · rw [alloc_from_page_err_nil_fl cfg st ttype cls fp rest0 hfh hfl] at hok
      exact Except.noConfusion hok
    · by_cases hidx : st.arena_idx < (cfg.arenaSize : Int)
      · obtain ⟨st2x, heq, ho, hpg, hh, hl, hfh2, _⟩ :=
          alloc_from_page_ok cfg st ttype cls fp rest0 p0 rest hfh hfl hidx
        rw [heq] at hok
        injection hok with hok1
        injection hok1 with hp hs
        subst hp
        subst hs
        rw [hfh] at hfh2
        exact ⟨fp, rest0, rest, rfl, hfl, hidx, ho, hpg, hh, hl, hfh2⟩
      · obtain ⟨e, herr⟩ := alloc_from_page_err_overflow cfg st ttype cls fp rest0 p0
          rest hfh hfl (not_lt.mp hidx)
        rw [herr] at hok
        exact Except.noConfusion hok

/-- A successful `alloc_from_page` keeps the heap-shape invariant: it turns
exactly one `FREE` slot (the popped free-list head) live and bumps `live` by
one. -/
theorem alloc_from_page_inv (cfg : Cfg) (st : State) (ttype : Vtype)
    (cls : Option Nat) (p : Nat) (st2 : State)
    (htag : heapTag ttype = true) (htne : ttype ≠ .FREE)
    (h : Inv cfg st)
    (hok : alloc_from_page cfg st ttype cls = .ok (p, st2)) :
    Inv cfg st2 := by
  obtain ⟨fp, rest0, rest, hfh, hfl, hidx, ho, hpg, hh, hl, hf⟩ :=
    alloc_from_page_ok_inversion cfg st ttype cls p st2 hok
  have hfp_fh : fp ∈ st.free_heaps := by
    rw [hfh]
    exact List.mem_cons_self fp rest0
  have hfp_heaps : fp ∈ st.heaps := h.free_heaps_sub fp hfp_fh
  have hfp_lt : fp < st.pages.length := h.heaps_lt fp hfp_heaps
  have hpfl : p ∈ (pageGet st fp).freelist := by
    rw [hfl]
    exact List.mem_cons_self p rest
  have hpmem : p ∈ pageIds cfg (pageGet st fp) := h.freelist_mem fp hfp_heaps p hpfl
  have hplt : p < st.objs.length := by
    have h1 := h.pages_valid fp hfp_heaps
    have h2 := (mem_pageIds_iff cfg _ p).mp hpmem
    omega
  obtain ⟨sl0, hg0⟩ := get?_some_of_lt st.objs p hplt
  have hsl0 : sl0.tt = .FREE := h.freelist_free fp hfp_heaps p hpfl sl0 hg0
  have hfl_nd : (p :: rest).Nodup := by
    rw [← hfl]
    exact h.freelist_nodup fp hfp_heaps
  have hpnr : p ∉ rest := (List.nodup_cons.mp hfl_nd).1
  have hrest_nd : rest.Nodup := (List.nodup_cons.mp hfl_nd).2
  have hget2_self : st2.objs.get? p = some ⟨ttype, .white, cls, []⟩ := by
    rw [ho]
    exact get?_set_self _ _ _ _ hg0
  have hget2_ne : ∀ j, j ≠ p → st2.objs.get? j = st.objs.get? j := by
    intro j hj
    rw [ho]
    exact get?_set_ne _ _ _ _ (fun hc => hj hc.symm)
  have hlen2 : st2.objs.length = st.objs.length := by
    rw [ho]
    simp
  have hpl2 : st2.pages.length = st.pages.length := by
    rw [hpg]
    simp
  obtain ⟨pg0, hgp0⟩ := get?_some_of_lt st.pages fp hfp_lt
  have hpg2 : ∀ q, q ≠ fp → pageGet st2 q = pageGet st q := by
    intro q hq
    rw [pageGet_eq_get?, pageGet_eq_get?, hpg,
      get?_set_ne _ _ _ _ (fun hc => hq hc.symm)]
  have hpgfp : pageGet st2 fp = {pageGet st fp with freelist := rest} := by
    rw [pageGet_eq_get?, hpg, get?_set_self _ _ _ _ hgp0]
    rfl
  have hstart : ∀ q, (pageGet st2 q).start = (pageGet st q).start := by
    intro q
    by_cases hq : q = fp
    · subst hq
      rw [hpgfp]
    · rw [hpg2 q hq]
  have hids2 : ∀ q, pageIds cfg (pageGet st2 q) = pageIds cfg (pageGet st q) :=
    fun q => pageIds_congr cfg (hstart q)
  have hnotp : ∀ q ∈ st.heaps, q ≠ fp → ∀ j ∈ pageIds cfg (pageGet st q), j ≠ p := by
    intro q hq hqfp j hj hc
    subst hc
    exact h.pages_disjoint q hq fp hfp_heaps hqfp j hj hpmem
  have hcount_other : ∀ q ∈ st.heaps, q ≠ fp →
      (pageIds cfg (pageGet st q)).countP (livePred st.objs)
        = (pageIds cfg (pageGet st2 q)).countP (livePred st2.objs) := by
    intro q hq hqfp
    rw [hids2 q]
    refine countP_congr_list _ _ _ (fun j hj => ?_)
    exact (livePred_congr_get j (hget2_ne j (hnotp q hq hqfp j hj))).symm
  have hcount_fp :
      (pageIds cfg (pageGet st2 fp)).countP (livePred st2.objs)
        = (pageIds cfg (pageGet st fp)).countP (livePred st.objs) + 1 := by
    rw [hids2 fp]
    refine countP_flip (livePred st.objs) (livePred st2.objs) p _
      (pageIds_nodup cfg _) hpmem ?_ ?_ ?_
    · intro j _ hj
      exact (livePred_congr_get j (hget2_ne j hj)).symm
    · rw [livePred_of_some hg0, hsl0]
      simp
    · rw [livePred_of_some hget2_self]
      simp [htne]
  have hsum := sum_map_update
    (fun pid => (pageIds cfg (pageGet st2 pid)).countP (livePred st2.objs))
    (fun pid => (pageIds cfg (pageGet st pid)).countP (livePred st.objs))
    fp 1 st.heaps h.heaps_nodup hfp_heaps
    (fun y hy hyfp => hcount_other y hy hyfp)
    hcount_fp.symm
  refine ⟨?_, ?_, ?_, ?_, ?_, ?_, ?_, ?_, ?_, ?_, ?_, ?_⟩
  · have hle := h.live_eq
    unfold liveCount at hle
    unfold liveCount
    rw [hh, hl]
    omega
  · rw [hh]
    exact h.heaps_nodup
  · intro pid hpid
    rw [hpl2]
    exact h.heaps_lt pid (hh ▸ hpid)
  · intro pid hpid
    rw [hstart pid, hlen2]
    exact h.pages_valid pid (hh ▸ hpid)
  · intro p1 hp1 p2 hp2 hne j hj
    rw [hids2 p1] at hj
    rw [hids2 p2]
    exact h.pages_disjoint p1 (hh ▸ hp1) p2 (hh ▸ hp2) hne j hj
  · intro q hq j hj
    rw [hids2 q]
    by_cases hqfp : q = fp
    · rw [hqfp] at hj ⊢
      rw [hpgfp] at hj
      dsimp only at hj
      exact h.freelist_mem fp hfp_heaps j (by rw [hfl]; exact List.mem_cons_of_mem p hj)
    · rw [hpg2 q hqfp] at hj
      exact h.freelist_mem q (hh ▸ hq) j hj
  · intro q hq j hj sl hsl
    by_cases hqfp : q = fp
    · rw [hqfp] at hj
      rw [hpgfp] at hj
      dsimp only at hj
      have hjp : j ≠ p := fun hc => hpnr (hc ▸ hj)
      rw [hget2_ne j hjp] at hsl
      exact h.freelist_free fp hfp_heaps j
        (by rw [hfl]; exact List.mem_cons_of_mem p hj) sl hsl
    · rw [hpg2 q hqfp] at hj
      have hjids := h.freelist_mem q (hh ▸ hq) j hj
      have hjp : j ≠ p := hnotp q (hh ▸ hq) hqfp j hjids
      rw [hget2_ne j hjp] at hsl
      exact h.freelist_free q (hh ▸ hq) j hj sl hsl
  · intro q hq
    by_cases hqfp : q = fp
    · rw [hqfp, hpgfp]
      exact hrest_nd
    · rw [hpg2 q hqfp]
      exact h.freelist_nodup q (hh ▸ hq)
  · intro q hq
    rw [hh]
    rw [hf] at hq
    by_cases hre : rest.isEmpty = true
    · rw [if_pos hre] at hq
      exact h.free_heaps_sub q (List.mem_of_mem_erase hq)
    · rw [if_neg hre] at hq
      exact h.free_heaps_sub q hq
  · intro q hq
    rw [hf] at hq
    by_cases hre : rest.isEmpty = true
    · rw [if_pos hre] at hq
      have h2 := (h.free_heaps_nodup.mem_erase_iff).mp hq
      rw [hpg2 q h2.1]
      exact h.free_heaps_ne q h2.2
    · rw [if_neg hre] at hq
      by_cases hqfp : q = fp
      · rw [hqfp, hpgfp]
        intro hc
        dsimp only at hc
        rw [hc] at hre
        exact hre rfl
      · rw [hpg2 q hqfp]
        exact h.free_heaps_ne q hq
  · rw [hf]
    by_cases hre : rest.isEmpty = true
    · rw [if_pos hre]
      exact List.Nodup.erase _ h.free_heaps_nodup
    · rw [if_neg hre]
      exact h.free_heaps_nodup
  · intro q hq j hj sl hsl hne2
    by_cases hjp : j = p
    · subst hjp
      rw [hget2_self] at hsl
      injection hsl with hh2
      rw [← hh2]
      exact htag
    · rw [hget2_ne j hjp] at hsl
      rw [hids2 q] at hj
      exact h.good_tags q (hh ▸ hq) j hj sl hsl hne2

theorem sweptSlot_tt_white_live {sl : Slot} (hw : sl.color = .white)
    (ht : sl.tt ≠ .FREE) (htg : heapTag sl.tt = true) :
    (sweptSlot sl).tt = .FREE := by
  unfold sweptSlot
  rw [if_pos hw, if_pos ht]
  exact obj_free_tt htg

theorem sweptSlot_tt_nonwhite {sl : Slot} (hw : ¬ sl.color = .white) :
    (sweptSlot sl).tt = sl.tt := by
  unfold sweptSlot
  rw [if_neg hw]

theorem isEmpty_eq_nil {α : Type} (l : List α) : l.isEmpty = true ↔ l = [] := by
  cases l <;> simp

/-- One pass of `sweep` over a page keeps the heap-shape invariant: `live`
drops by exactly the number of slots reverted to `FREE` on that page (since a
retired page was entirely dead, retiring it also removes exactly the slots
just freed from the count). -/
theorem sweep_page_inv (cfg : Cfg) (st : State) (pid : Nat)
    (h : Inv cfg st) (hpid : pid ∈ st.heaps) :
    Inv cfg (sweep_page cfg st pid) := by
  obtain ⟨s1, s2, s3, s4, s5, s6, s7⟩ :=
    sweep_page_spec cfg st pid (pageIds_nodup cfg _)
  have hpid_lt : pid < st.pages.length := h.heaps_lt pid hpid
  obtain ⟨pg0, hgp0⟩ := get?_some_of_lt st.pages pid hpid_lt
  have hpgS : pageGet (sweep_page cfg st pid) pid =
      {pageGet st pid with freelist :=
        ((pageIds cfg (pageGet st pid)).filter (freedPred st.objs)).reverse
          ++ (pageGet st pid).freelist} := by
    rw [pageGet_eq_get?, s5, get?_set_self _ _ _ _ hgp0]
    rfl
  have hpg2ne : ∀ q, q ≠ pid → pageGet (sweep_page cfg st pid) q = pageGet st q := by
    intro q hq
    rw [pageGet_eq_get?, pageGet_eq_get?, s5,
      get?_set_ne _ _ _ _ (fun hc => hq hc.symm)]
  have hplS : (sweep_page cfg st pid).pages.length = st.pages.length := by
    rw [s5]
    simp
  have hids2 : ∀ q, pageIds cfg (pageGet (sweep_page cfg st pid) q)
      = pageIds cfg (pageGet st q) :=
    fun q => pageIds_congr cfg (sweep_page_start cfg st pid q)
  have hsome : ∀ j ∈ pageIds cfg (pageGet st pid), ∃ sl, st.objs.get? j = some sl := by
    intro j hj
    have h1 := h.pages_valid pid hpid
    have h2 := (mem_pageIds_iff cfg _ j).mp hj
    exact get?_some_of_lt st.objs j (by omega)
  have hother_slots : ∀ q ∈ st.heaps, q ≠ pid → ∀ j ∈ pageIds cfg (pageGet st q),
      (sweep_page cfg st pid).objs.get? j = st.objs.get? j := by
    intro q hq hqp j hj
    exact s2 j (h.pages_disjoint q hq pid hpid hqp j hj)
  have hcount_other : ∀ q ∈ st.heaps, q ≠ pid →
      (pageIds cfg (pageGet (sweep_page cfg st pid) q)).countP
          (livePred (sweep_page cfg st pid).objs)
        = (pageIds cfg (pageGet st q)).countP (livePred st.objs) := by
    intro q hq hqp
    rw [hids2 q]
    refine countP_congr_list _ _ _ (fun j hj => ?_)
    exact livePred_congr_get j (hother_slots q hq hqp j hj)
  have hpoint : ∀ j ∈ pageIds cfg (pageGet st pid),
      (if livePred (sweep_page cfg st pid).objs j then 1 else 0)
        + (if freedPred st.objs j then 1 else 0)
        = (if livePred st.objs j then 1 else 0) := by
    intro j hj
    obtain ⟨sl, hg⟩ := hsome j hj
    have hS := s3 j sl hj hg
    rw [livePred_of_some hS, livePred_of_some hg, freedPred_of_some hg]
    by_cases hw : sl.color = .white
    · by_cases ht : sl.tt = .FREE
      · have h1 : (sweptSlot sl).tt = .FREE := sweptSlot_tt_free ht
        simp [h1, ht, hw]
      · have htg := h.good_tags pid hpid j hj sl hg ht
        have h1 : (sweptSlot sl).tt = .FREE := sweptSlot_tt_white_live hw ht htg
        simp [h1, ht, hw]
    · have h1 : (sweptSlot sl).tt = sl.tt := sweptSlot_tt_nonwhite hw
      simp [h1, hw]
  have hkey : (pageIds cfg (pageGet st pid)).countP
        (livePred (sweep_page cfg st pid).objs)
      + (pageIds cfg (pageGet st pid)).countP (freedPred st.objs)
      = (pageIds cfg (pageGet st pid)).countP (livePred st.objs) :=
    countP_split _ _ _ _ hpoint
  by_cases hret : (pageDead cfg st pid = true ∧ pageFreed cfg st pid < cfg.heapPageSize)
  · -- the page is retired: unlinked from both lists
    obtain ⟨hheaps, hfree⟩ := s6 hret
    have hdead : ∀ j ∈ pageIds cfg (pageGet st pid), survPred st.objs j = false := by
      intro j hj
      have h1 := hret.1
      unfold pageDead at h1
      have h2 := List.all_eq_true.mp h1 j hj
      simp at h2
      exact h2
    have hpid_count : (pageIds cfg (pageGet st pid)).countP (livePred st.objs)
        = pageFreed cfg st pid := by
      refine countP_congr_list _ _ _ (fun j hj => ?_)
      obtain ⟨sl, hg⟩ := hsome j hj
      have h2 := hdead j hj
      rw [survPred_of_some hg] at h2
      simp at h2
      rw [livePred_of_some hg, freedPred_of_some hg]
      simp [h2]
    have hsum_split : (st.heaps.map (fun q =>
          (pageIds cfg (pageGet st q)).countP (livePred st.objs))).sum
        = ((st.heaps.erase pid).map (fun q =>
          (pageIds cfg (pageGet st q)).countP (livePred st.objs))).sum
          + (pageIds cfg (pageGet st pid)).countP (livePred st.objs) :=
      sum_map_erase _ pid st.heaps hpid
    have hmap_erase : (st.heaps.erase pid).map (fun q =>
          (pageIds cfg (pageGet (sweep_page cfg st pid) q)).countP
            (livePred (sweep_page cfg st pid).objs))
        = (st.heaps.erase pid).map (fun q =>
          (pageIds cfg (pageGet st q)).countP (livePred st.objs)) := by
      refine map_congr_list _ _ _ (fun q hq => ?_)
      obtain ⟨hne, hmem⟩ := (h.heaps_nodup.mem_erase_iff).mp hq
      exact hcount_other q hmem hne
    refine ⟨?_, ?_, ?_, ?_, ?_, ?_, ?_, ?_, ?_, ?_, ?_, ?_⟩
    · rw [s4]
      unfold liveCount
      rw [hheaps, hmap_erase]
      have hle := h.live_eq
      unfold liveCount at hle
      omega
    · rw [hheaps]
      exact List.Nodup.erase _ h.heaps_nodup
    · intro q hq
      rw [hheaps] at hq
      rw [hplS]
      exact h.heaps_lt q (List.mem_of_mem_erase hq)
    · intro q hq
      rw [hheaps] at hq
      rw [sweep_page_start cfg st pid q, s1]
      exact h.pages_valid q (List.mem_of_mem_erase hq)
    · intro p1 hp1 p2 hp2 hne j hj
      rw [hheaps] at hp1 hp2
      rw [hids2 p1] at hj
      rw [hids2 p2]
      exact h.pages_disjoint p1 (List.mem_of_mem_erase hp1) p2
        (List.mem_of_mem_erase hp2) hne j hj
    · intro q hq j hj
      rw [hheaps] at hq
      obtain ⟨hne, hmem⟩ := (h.heaps_nodup.mem_erase_iff).mp hq
      rw [hpg2ne q hne] at hj
      rw [hids2 q]
      exact h.freelist_mem q hmem j hj
    · intro q hq j hj sl hsl
      rw [hheaps] at hq
      obtain ⟨hne, hmem⟩ := (h.heaps_nodup.mem_erase_iff).mp hq
      rw [hpg2ne q hne] at hj
      rw [hother_slots q hmem hne j (h.freelist_mem q hmem j hj)] at hsl
      exact h.freelist_free q hmem j hj sl hsl
    · intro q hq
      rw [hheaps] at hq
      obtain ⟨hne, hmem⟩ := (h.heaps_nodup.mem_erase_iff).mp hq
      rw [hpg2ne q hne]
      exact h.freelist_nodup q hmem
    · intro q hq
      rw [hfree] at hq
      obtain ⟨hne, hmem⟩ := (h.free_heaps_nodup.mem_erase_iff).mp hq
      rw [hheaps]
      exact (h.heaps_nodup.mem_erase_iff).mpr ⟨hne, h.free_heaps_sub q hmem⟩
    · intro q hq
      rw [hfree] at hq
      obtain ⟨hne, hmem⟩ := (h.free_heaps_nodup.mem_erase_iff).mp hq
      rw [hpg2ne q hne]
      exact h.free_heaps_ne q hmem
    · rw [hfree]
      exact List.Nodup.erase _ h.free_heaps_nodup
    · intro q hq j hj sl hsl hne2
      rw [hheaps] at hq
      obtain ⟨hne, hmem⟩ := (h.heaps_nodup.mem_erase_iff).mp hq
      rw [hids2 q] at hj
      rw [hother_slots q hmem hne j hj] at hsl
      exact h.good_tags q hmem j hj sl hsl hne2
  · -- the page is retained (possibly re-linked into the free-pages list)
    obtain ⟨hheaps, hfree⟩ := s7 hret
    have hsum : (st.heaps.map (fun q =>
          (pageIds cfg (pageGet (sweep_page cfg st pid) q)).countP
            (livePred (sweep_page cfg st pid).objs))).sum
          + pageFreed cfg st pid
        = (st.heaps.map (fun q =>
          (pageIds cfg (pageGet st q)).countP (livePred st.objs))).sum := by
      refine sum_map_update _ _ pid (pageFreed cfg st pid) st.heaps h.heaps_nodup hpid
        (fun y hy hyp => hcount_other y hy hyp) ?_
      show (pageIds cfg (pageGet (sweep_page cfg st pid) pid)).countP
          (livePred (sweep_page cfg st pid).objs) + pageFreed cfg st pid
        = (pageIds cfg (pageGet st pid)).countP (livePred st.objs)
      rw [hids2 pid]
      exact hkey
    refine ⟨?_, ?_, ?_, ?_, ?_, ?_, ?_, ?_, ?_, ?_, ?_, ?_⟩
    · rw [s4]
      unfold liveCount
      rw [hheaps]
      have hle := h.live_eq
      unfold liveCount at hle
      omega
    · rw [hheaps]
      exact h.heaps_nodup
    · intro q hq
      rw [hheaps] at hq
      rw [hplS]
      exact h.heaps_lt q hq
    · intro q hq
      rw [hheaps] at hq
      rw [sweep_page_start cfg st pid q, s1]
      exact h.pages_valid q hq
    · intro p1 hp1 p2 hp2 hne j hj
      rw [hheaps] at hp1 hp2
      rw [hids2 p1] at hj
      rw [hids2 p2]
      exact h.pages_disjoint p1 hp1 p2 hp2 hne j hj
    · intro q hq j hj
      rw [hheaps] at hq
      by_cases hqp : q = pid
      · rw [hqp] at hj ⊢
        rw [hpgS] at hj
        dsimp only at hj
        rw [hids2 pid]
        rcases List.mem_append.mp hj with hl | hr
        · exact (List.mem_filter.mp (List.mem_reverse.mp hl)).1
        · exact h.freelist_mem pid hpid j hr
      · rw [hpg2ne q hqp] at hj
        rw [hids2 q]
        exact h.freelist_mem q hq j hj
    · intro q hq j hj sl2 hsl
      rw [hheaps] at hq
      by_cases hqp : q = pid
      · rw [hqp] at hj
        rw [hpgS] at hj
        dsimp only at hj
        rcases List.mem_append.mp hj with hl | hr
        · have hin := List.mem_filter.mp (List.mem_reverse.mp hl)
          obtain ⟨sl, hg⟩ := hsome j hin.1
          have hfp := hin.2
          rw [freedPred_of_some hg] at hfp
          simp at hfp
          have htg := h.good_tags pid hpid j hin.1 sl hg hfp.2
          have h1 := sweptSlot_tt_white_live hfp.1 hfp.2 htg
          have hS := s3 j sl hin.1 hg
          rw [hS] at hsl
          injection hsl with he
          rw [← he]
          exact h1
        · have hjids := h.freelist_mem pid hpid j hr
          obtain ⟨sl, hg⟩ := hsome j hjids
          have hfree0 := h.freelist_free pid hpid j hr sl hg
          have h1 := sweptSlot_tt_free hfree0
          have hS := s3 j sl hjids hg
          rw [hS] at hsl
          injection hsl with he
          rw [← he]
          exact h1
      · rw [hpg2ne q hqp] at hj
        rw [hother_slots q hq hqp j (h.freelist_mem q hq j hj)] at hsl
        exact h.freelist_free q hq j hj sl2 hsl
    · intro q hq
      rw [hheaps] at hq
      by_cases hqp : q = pid
      · rw [hqp, hpgS]
        refine List.Nodup.append
          (List.nodup_reverse.mpr ((pageIds_nodup cfg _).filter _))
          (h.freelist_nodup pid hpid) ?_
        intro a ha1 ha2
        have hin := List.mem_filter.mp (List.mem_reverse.mp ha1)
        obtain ⟨sl, hg⟩ := hsome a hin.1
        have hfp := hin.2
        rw [freedPred_of_some hg] at hfp
        simp at hfp
        exact hfp.2 (h.freelist_free pid hpid a ha2 sl hg)
      · rw [hpg2ne q hqp]
        exact h.freelist_nodup q hq
    · intro q hq
      rw [hfree] at hq
      rw [hheaps]
      by_cases hpush : (pageGet st pid).freelist.isEmpty ∧ 0 < pageFreed cfg st pid
      · rw [if_pos hpush] at hq
        rcases List.mem_cons.mp hq with hc | hc
        · rw [hc]
          exact hpid
        · exact h.free_heaps_sub q hc
      · rw [if_neg hpush] at hq
        exact h.free_heaps_sub q hq
    · intro q hq
      rw [hfree] at hq
      by_cases hpush : (pageGet st pid).freelist.isEmpty ∧ 0 < pageFreed cfg st pid
      · rw [if_pos hpush] at hq
        by_cases hqp : q = pid
        · rw [hqp, hpgS]
          intro hc
          dsimp only at hc
          have h2 := (List.append_eq_nil.mp hc).1
          have h3 : (pageIds cfg (pageGet st pid)).filter (freedPred st.objs) = [] := by
            rwa [List.reverse_eq_nil_iff] at h2
          have h4 : pageFreed cfg st pid = 0 := by
            unfold pageFreed
            rw [List.countP_eq_length_filter, h3]
            rfl
          have h5 := hpush.2
          omega
        · have hqf : q ∈ st.free_heaps := by
            rcases List.mem_cons.mp hq with hc | hc
            · exact absurd hc hqp
            · exact hc
          rw [hpg2ne q hqp]
          exact h.free_heaps_ne q hqf
      · rw [if_neg hpush] at hq
        by_cases hqp : q = pid
        · rw [hqp, hpgS]
          intro hc
          dsimp only at hc
          have h2 := (List.append_eq_nil.mp hc).2
          exact h.free_heaps_ne pid (hqp ▸ hq) h2
        · rw [hpg2ne q hqp]
          exact h.free_heaps_ne q hq
    · rw [hfree]
      by_cases hpush : (pageGet st pid).freelist.isEmpty ∧ 0 < pageFreed cfg st pid
      · rw [if_pos hpush]
        refine List.nodup_cons.mpr ⟨?_, h.free_heaps_nodup⟩
        intro hc
        have h2 := h.free_heaps_ne pid hc
        exact h2 ((isEmpty_eq_nil _).mp hpush.1)
      · rw [if_neg hpush]
        exact h.free_heaps_nodup
    · intro q hq j hj sl2 hsl hne2
      rw [hheaps] at hq
      rw [hids2 q] at hj
      by_cases hqp : q = pid
      · rw [hqp] at hj
        obtain ⟨sl, hg⟩ := hsome j hj
        have hS := s3 j sl hj hg
        rw [hS] at hsl
        injection hsl with he
        rcases sweptSlot_tt_cases sl with hcf | hce
        · rw [← he] at hne2
          exact absurd hcf hne2
        · have hslt : sl.tt ≠ .FREE := by
            rw [← he, hce] at hne2
            exact hne2
          have htg := h.good_tags pid hpid j hj sl hg hslt
          rw [← he, hce]
          exact htg
      · rw [hother_slots q hq hqp j hj] at hsl
        exact h.good_tags q hq j hj sl2 hsl hne2

theorem sweep_go_inv (cfg : Cfg) :
    ∀ (work : List Nat) (st : State), work.Nodup → (∀ q ∈ work, q ∈ st.heaps) →
      Inv cfg st → Inv cfg (sweep_go cfg st work) := by
  intro work
  induction work with
  | nil =>
    intro st _ _ h
    exact @inv_congr cfg st (sweep_go cfg st []) rfl rfl rfl rfl rfl (fun j => rfl) h
  | cons q rest ih =>
    intro st hnd hsub h
    have hq : q ∈ st.heaps := hsub q (List.mem_cons_self q rest)
    have h1 := sweep_page_inv cfg st q h hq
    refine ih (sweep_page cfg st q) (List.nodup_cons.mp hnd).2 ?_ h1
    intro r hr
    have hrq : r ≠ q := fun hc => (List.nodup_cons.mp hnd).1 (hc ▸ hr)
    have hrh : r ∈ st.heaps := hsub r (List.mem_cons_of_mem q hr)
    rcases sweep_page_heaps_cases cfg st q with hc | hc
    · rw [hc]
      exact hrh
    · rw [hc]
      exact (h.heaps_nodup.mem_erase_iff).mpr ⟨hrq, hrh⟩

/-- The mark phase keeps the invariant: it only repaints colours, leaving
every tag, the page lists, and `live` untouched. -/
theorem mark_state_inv (cfg : Cfg) (st : State) (h : Inv cfg st) :
    Inv cfg (prepare_sweep {mark st with gc_state := .SWEEP}) := by
  exact @inv_congr cfg st (prepare_sweep {mark st with gc_state := .SWEEP})
    rfl rfl rfl rfl (mark_colorStep st).1
    (fun j => (mark_colorStep st).tt_eq j) h

/-- A full collection keeps the invariant. -/
theorem gc_inv (cfg : Cfg) (st : State) (h : Inv cfg st) : Inv cfg (gc cfg st) := by
  have h1 := mark_state_inv cfg st h
  have hsub : ∀ q ∈ st.heaps,
      q ∈ (prepare_sweep {mark st with gc_state := .SWEEP}).heaps := fun _ hq => hq
  have h2 := sweep_go_inv cfg st.heaps _ h.heaps_nodup hsub h1
  exact @inv_congr cfg
    (sweep_go cfg (prepare_sweep {mark st with gc_state := .SWEEP}) st.heaps)
    (gc cfg st) rfl rfl rfl rfl rfl (fun j => rfl) h2

theorem mrb_garbage_collect_inv (cfg : Cfg) (st : State) (h : Inv cfg st) :
    Inv cfg (mrb_garbage_collect cfg st) := by
  unfold mrb_garbage_collect
  by_cases hd : st.gc_disabled = true
  · rw [if_pos hd]
    exact h
  · rw [if_neg hd]
    exact gc_inv cfg st h

/-- A successful `mrb_obj_alloc` keeps the invariant (for a real object tag,
as every caller passes). -/
theorem mrb_obj_alloc_inv (cfg : Cfg) (st0 : State) (ttype : Vtype)
    (cls : Option Nat) (p : Nat) (st2 : State)
    (hP : 0 < cfg.heapPageSize)
    (htag : heapTag ttype = true) (htne : ttype ≠ .FREE)
    (h : Inv cfg st0)
    (hok : mrb_obj_alloc cfg st0 ttype cls = .ok (p, st2)) :
    Inv cfg st2 := by
  unfold mrb_obj_alloc at hok
  by_cases he : st0.free_heaps.isEmpty = true
  · rw [if_pos he] at hok
    exact alloc_from_page_inv cfg _ ttype cls p st2 htag htne
      (add_heap_inv cfg _ hP (mrb_garbage_collect_inv cfg st0 h)) hok
  · rw [if_neg he] at hok
    exact alloc_from_page_inv cfg _ ttype cls p st2 htag htne h hok

/-- `mrb_init_heap` establishes the invariant from a blank heap (as in
`mrb_open`, where no objects or pages exist yet and `live = 0`). -/
theorem mrb_init_heap_inv (cfg : Cfg) (base : State) (hP : 0 < cfg.heapPageSize)
    (h1 : base.objs = []) (h2 : base.pages = []) (h3 : base.live = 0) :
    Inv cfg (mrb_init_heap cfg base) := by
  unfold mrb_init_heap
  refine add_heap_inv cfg _ hP ?_
  refine ⟨?_, ?_, ?_, ?_, ?_, ?_, ?_, ?_, ?_, ?_, ?_, ?_⟩
  · exact h3
  · exact List.nodup_nil
  · intro pid hpid
    cases hpid
  · intro pid hpid
    cases hpid
  · intro p1 hp1
    cases hp1
  · intro pid hpid
    cases hpid
  · intro pid hpid
    cases hpid
  · intro pid hpid
    cases hpid
  · intro pid hpid
    cases hpid
  · intro pid hpid
    cases hpid
  · exact List.nodup_nil
  · intro pid hpid
    cases hpid

/-- The states the mutator can reach by heap setup followed by any sequence
of successful allocations (each with a real object tag, as every caller
passes). -/
inductive Reached (cfg : Cfg) : State → Prop where
  | init (base : State) (h1 : base.objs = []) (h2 : base.pages = [])
      (h3 : base.live = 0) : Reached cfg (mrb_init_heap cfg base)
  | step (st st2 : State) (ttype : Vtype) (cls : Option Nat) (p : Nat)
      (hst : Reached cfg st) (htag : heapTag ttype = true) (htne : ttype ≠ .FREE)
      (hok : mrb_obj_alloc cfg st ttype cls = .ok (p, st2)) : Reached cfg st2

theorem reached_inv (cfg : Cfg) (st : State) (hP : 0 < cfg.heapPageSize)
    (h : Reached cfg st) : Inv cfg st := by
  induction h with
  | init base h1 h2 h3 => exact mrb_init_heap_inv cfg base hP h1 h2 h3
  | step st st2 ttype cls p hst htag htne hok ih =>
    exact mrb_obj_alloc_inv cfg st ttype cls p st2 hP htag htne ih hok

/-- Claim C4: after any sequence of allocations (each returning normally)
followed by one collection, the `live` counter equals the number of slots
with `tt != FREE` across all pages: each allocation turns exactly one `FREE`
slot live and bumps `live` by one (`alloc_from_page_inv`), and sweep
subtracts from `live` exactly the number of slots it reverts to `FREE`
(`sweep_page_inv`), so the equality holds both before and after the
collection. -/
theorem C4_live_counter (cfg : Cfg) (st : State) (hP : 0 < cfg.heapPageSize)
    (h : Reached cfg st) :
    st.live = liveCount cfg st ∧ (gc cfg st).live = liveCount cfg (gc cfg st) := by
  have hInv := reached_inv cfg st hP h
  exact ⟨hInv.live_eq, (gc_inv cfg st hInv).live_eq⟩

/-- Claim C4 witness: the heap reached by one allocation from a fresh
two-slot heap, where `live = 1` matches the single `OBJECT` slot. -/
theorem C4_live_counter_witness :
    0 < cfgC1.heapPageSize ∧ stC9.live = liveCount cfgC1 stC9 ∧
    (gc cfgC1 stC9).live = liveCount cfgC1 (gc cfgC1 stC9) := by
  have h0 : Reached cfgC1 (mrb_init_heap cfgC1 (blankState cfgC1)) :=
    Reached.init (blankState cfgC1) rfl rfl rfl
  have hr : Reached cfgC1 stC9 :=
    Reached.step _ stC9 .OBJECT none 1 h0 rfl (by decide) rfl
  have h := C4_live_counter cfgC1 stC9 (by decide) hr
  exact ⟨by decide, h.1, h.2⟩
